import Mathlib

/-!
Verification of the pdf-chat-app-rag core: a shallow embedding of the
TF-IDF retrieval module (`retrieval.js` / `part_003`), the page chunker
(`backend/src/pdf.js`), and the chat / compare / summary decision logic of
`backend/src/server.js`, `server/constants.js` and `summary.js`.

JS strings are modelled as `List Char`, JS numbers that hold character
counts as `Nat`, and TF-IDF scores as real numbers (`ℝ`), with the
`minScore` option an `EReal` so that the source's `-Infinity` default is
representable as `⊥`.  JS `Map`s (term frequency, document frequency,
vocabulary index) are association lists in insertion order, which is the
iteration order the source relies on.
-/

set_option linter.unusedVariables false

/-- A JS string: a list of characters. -/
abbrev Str := List Char

/-- The whitespace class `\s` of the source's regexes, restricted to the
ASCII whitespace that the app's normalized texts can contain
(space, tab, newline, carriage return, vertical tab, form feed). -/
def isWsChar (c : Char) : Bool :=
  c = ' ' || c = '\t' || c = '\n' || c = '\r' || c = Char.ofNat 11 || c = Char.ofNat 12

/-- `String.prototype.trimStart`. -/
def trimStart (s : Str) : Str := s.dropWhile isWsChar

/-- `String.prototype.trimEnd`. -/
def trimEnd (s : Str) : Str := (s.reverse.dropWhile isWsChar).reverse

/-- `String.prototype.trim`. -/
def jsTrim (s : Str) : Str := trimEnd (trimStart s)

/-- Characters kept by the tokenizer's regex `[^a-z0-9\s]` complement:
lowercase letters and digits. -/
def lowerAlnum (c : Char) : Bool :=
  ('a' ≤ c && c ≤ 'z') || ('0' ≤ c && c ≤ '9')

/-- One step of `.replace(/[^a-z0-9\s]/g, ' ')`: a character that is neither
lowercase alphanumeric nor whitespace becomes a space. -/
def scrubChar (c : Char) : Char :=
  if lowerAlnum c || isWsChar c then c else ' '

/-- `tokenize` from `retrieval.js`: lowercase, strip non-alphanumerics to
spaces, split on whitespace, keep tokens of length ≥ 2.  `splitOnP` yields
the maximal non-whitespace runs interleaved with empty pieces exactly where
JS `split(/\s+/)` yields its artifacts; the length filter removes both. -/
def tokenize (text : Str) : List Str :=
  (((text.map Char.toLower).map scrubChar).splitOnP isWsChar).filter
    (fun t => 2 ≤ t.length)

/-- Lookup in an insertion-ordered association list (JS `Map.get`). -/
def alookup {α : Type} (m : List (Str × α)) (k : Str) : Option α :=
  (m.find? (fun p => p.1 == k)).map (fun p => p.2)

/-- JS `map.set(k, (map.get(k) || 0) + 1)`: bump the count of `k`, keeping
its position if present, appending it otherwise. -/
def incKey (m : List (Str × Nat)) (k : Str) : List (Str × Nat) :=
  match alookup m k with
  | some _ => m.map (fun p => if p.1 = k then (p.1, p.2 + 1) else p)
  | none => m ++ [(k, 1)]

/-- `buildTf` from `retrieval.js`: term-frequency counts in first-seen
order. -/
def buildTf (tokens : List Str) : List (Str × Nat) :=
  tokens.foldl incKey []

/-- The document-frequency map of `buildTfidfIndex`: for each per-chunk tf,
each of its keys bumps the df count. -/
def buildDf (tfs : List (List (Str × Nat))) : List (Str × Nat) :=
  tfs.foldl (fun df tf => tf.foldl (fun d p => incKey d p.1) df) []

/-- A page as produced by `extractPages`. -/
structure Page where
  pageNumber : Nat
  text : Str
deriving DecidableEq

/-- A chunk as produced by `chunkPages` and consumed by retrieval. -/
structure Chunk where
  id : Str
  docId : Str
  pageStart : Nat
  pageEnd : Nat
  text : Str
deriving DecidableEq

/-- `clipText` from `retrieval.js`: truncate to `maxChars`, replacing the
last kept character with an ellipsis; a zero (JS: falsy or non-positive)
budget means no truncation at all. -/
def clipText (text : Str) (maxChars : Nat) : Str :=
  if text = [] then []
  else if maxChars = 0 then text
  else if text.length ≤ maxChars then text
  else text.take (maxChars - 1) ++ ['…']

/-! ## The page chunker (`chunkPages` in `backend/src/pdf.js`) -/

/-- The paragraph separator inserted by `buf.map(p => p.text).join('\n\n')`. -/
def sepNN : Str := ['\n', '\n']

/-- `Array.prototype.join` with a separator. -/
def jsJoin (s : Str) : List Str → Str
  | [] => []
  | [t] => t
  | t :: t2 :: ts => t ++ s ++ jsJoin s (t2 :: ts)

/-- JS `text.slice(-n)` for `n ≥ 1`: the last `n` characters (the whole
string when it is shorter). -/
def takeRight (n : Nat) (s : Str) : Str := s.drop (s.length - n)

/-- The chunk id `` `${docId}:${chunks.length}` ``. -/
def chunkId (docId : Str) (n : Nat) : Str := docId ++ [':'] ++ (Nat.repr n).data

/-- The chunker's loop state: emitted chunks, the page buffer, and the
tracked buffer length. -/
structure CPState where
  chunks : List Chunk
  buf : List Page
  bufLen : Nat

/-- `flush` from `chunkPages`: join and trim the buffer, emit a chunk when
the text is non-empty, then seed the next buffer with the trailing
`overlapChars` characters (tagged with the emitted chunk's last page
number) unless overlap is disabled or the tail trims to nothing. -/
def flushCP (docId : Str) (overlapChars : Nat) (st : CPState) : CPState :=
  match st.buf with
  | [] => st
  | b0 :: rest =>
    let pageStart := b0.pageNumber
    let pageEnd := ((b0 :: rest).getLast (List.cons_ne_nil b0 rest)).pageNumber
    let text := jsTrim (jsJoin sepNN ((b0 :: rest).map (fun p => p.text)))
    let chunks' := if text = [] then st.chunks
      else st.chunks ++ [⟨chunkId docId st.chunks.length, docId, pageStart, pageEnd, text⟩]
    if overlapChars = 0 then ⟨chunks', [], 0⟩
    else
      let tail := takeRight overlapChars text
      if jsTrim tail = [] then ⟨chunks', [], 0⟩
      else ⟨chunks', [⟨pageEnd, tail⟩], tail.length⟩

/-- The page loop of `chunkPages`: skip empty pages, buffer the rest, flush
when the buffered length reaches `targetChars`, and flush once more at the
end. -/
def chunkPagesAux (docId : Str) (targetChars overlapChars : Nat) :
    List Page → CPState → CPState
  | [], st => flushCP docId overlapChars st
  | p :: ps, st =>
    if p.text = [] then chunkPagesAux docId targetChars overlapChars ps st
    else
      let st1 : CPState := ⟨st.chunks, st.buf ++ [p], st.bufLen + p.text.length⟩
      chunkPagesAux docId targetChars overlapChars ps
        (if targetChars ≤ st1.bufLen then flushCP docId overlapChars st1 else st1)

/-- `chunkPages` from `backend/src/pdf.js` (defaults 3500 / 300). -/
def chunkPages (pages : List Page) (docId : Str)
    (targetChars : Nat := 3500) (overlapChars : Nat := 300) : List Chunk :=
  (chunkPagesAux docId targetChars overlapChars pages ⟨[], [], 0⟩).chunks

/-- The overlap seed that `flush` hands to the next buffer: the trailing
`overlapChars` characters of the emitted text, or nothing when overlap is
disabled or the tail is all whitespace. -/
def overlapSeed (overlapChars : Nat) (text : Str) : Str :=
  if overlapChars = 0 then []
  else
    let tail := takeRight overlapChars text
    if jsTrim tail = [] then [] else tail

/-- `(l.map (sepNN ++ ·)).join`: the separated concatenation of the pieces
that follow a first one. -/
def sepJoin (l : List Str) : Str := (l.map (fun t => sepNN ++ t)).flatten

/-- Walk the chunk list, dropping from each chunk the part duplicated from
its predecessor (the trimmed overlap seed) and keeping the rest. -/
def reconAux (overlapChars : Nat) : Str → List Chunk → Str
  | _, [] => []
  | prev, c :: cs =>
    c.text.drop (trimStart (overlapSeed overlapChars prev)).length
      ++ reconAux overlapChars c.text cs

/-- The reconstruction of the chunked document: the first chunk's text
followed by every later chunk with its overlap-duplicated leading tail
removed. -/
def recon (overlapChars : Nat) : List Chunk → Str
  | [] => []
  | c :: cs => c.text ++ reconAux overlapChars c.text cs

/-! ## TF-IDF index and search (`retrieval.js` / `part_003`) -/

noncomputable section

/-- `dot` from `retrieval.js` (used only on equal-length vectors). -/
def dotR (a b : List ℝ) : ℝ := ((a.zip b).map (fun p => p.1 * p.2)).sum

/-- `norm` from `retrieval.js`: `Math.sqrt(dot(a, a)) || 1`. -/
def normR (a : List ℝ) : ℝ :=
  if Real.sqrt (dotR a a) = 0 then 1 else Real.sqrt (dotR a a)

/-- `normalize` from `retrieval.js`. -/
def normalizeVec (v : List ℝ) : List ℝ := v.map (fun x => x / normR v)

/-- The weighted-vector loop shared by `buildTfidfIndex` and `searchTfidf`:
start from a zero vector of the vocabulary's length and write
`count * idf[j]` at each term's vocabulary slot. -/
def weightVec (vocabIndex : List (Str × Nat)) (idf : List ℝ) (len : Nat)
    (tf : List (Str × Nat)) : List ℝ :=
  tf.foldl (fun vec p =>
    match alookup vocabIndex p.1 with
    | none => vec
    | some j => vec.set j ((p.2 : ℝ) * idf.getD j 0)) (List.replicate len 0)

/-- The idf weight of a term: `Math.log((N + 1) / (d + 1)) + 1` with
`d = df.get(t) || 1`. -/
def idfOf (N : Nat) (df : List (Str × Nat)) (t : Str) : ℝ :=
  Real.log (((N : ℝ) + 1) /
    (((if (alookup df t).getD 0 = 0 then 1 else (alookup df t).getD 0 : Nat) : ℝ) + 1)) + 1

/-- The built index (`kind: 'tfidf'` carries no data and is omitted). -/
structure TfidfIndex where
  vocab : List Str
  vocabIndex : List (Str × Nat)
  idf : List ℝ
  vectors : List (List ℝ)

/-- `buildTfidfIndex` from `retrieval.js`. -/
def buildTfidfIndex (chunks : List Chunk) : TfidfIndex :=
  let tfs := (chunks.map (fun c => tokenize c.text)).map buildTf
  let df := buildDf tfs
  let N := chunks.length
  let vocab := df.map (fun p => p.1)
  let vocabIndex := vocab.enum.map (fun p => (p.2, p.1))
  let idf := vocab.map (idfOf N df)
  ⟨vocab, vocabIndex, idf,
    tfs.map (fun tf => normalizeVec (weightVec vocabIndex idf vocab.length tf))⟩

/-- The options object of `searchTfidf`, with the source's defaults; the
`-Infinity` default of `minScore` is `⊥ : EReal`. -/
structure SearchOpts where
  topK : Nat := 5
  minScore : EReal := ⊥
  maxChunkChars : Nat := 1400
  maxTotalChars : Nat := 9000

/-- One entry of the `scored` array: a chunk index and its score. -/
structure ScoredItem where
  i : Nat
  score : ℝ

/-- One returned result: a (copied) chunk and its score. -/
structure SearchResult where
  chunk : Chunk
  score : ℝ

/-- Insertion into a descending-sorted list, stopping at the first strictly
smaller element: the stable descending sort of
`scored.sort((a, b) => b.score - a.score)`. -/
def insertDesc (x : ScoredItem) : List ScoredItem → List ScoredItem
  | [] => [x]
  | y :: ys => if y.score < x.score then x :: y :: ys else y :: insertDesc x ys

/-- Stable descending sort by score. -/
def sortScored (l : List ScoredItem) : List ScoredItem := l.foldr insertDesc []

/-- The query vector of `searchTfidf`: the query's tf weighted through the
index's existing vocabulary and idf, normalized. -/
def searchQ (index : TfidfIndex) (query : Str) : List ℝ :=
  normalizeVec
    (weightVec index.vocabIndex index.idf index.vocab.length (buildTf (tokenize query)))

/-- The `scored` array of `searchTfidf` before sorting. -/
def searchScored (index : TfidfIndex) (query : Str) : List ScoredItem :=
  index.vectors.enum.map (fun p => ⟨p.1, dotR (searchQ index query) p.2⟩)

/-- The accepting walk of `searchTfidf`: stop at `Math.max(1, topK)`
results, skip scores below `minScore`, skip missing chunks, stop when the
total budget is exhausted, truncate each accepted chunk to
`min(maxChunkChars, remaining)` and skip it if the excerpt is empty. -/
def walkAux (chunks : List Chunk) (opts : SearchOpts) :
    List ScoredItem → List SearchResult → Nat → List SearchResult
  | [], acc, _ => acc
  | s :: rest, acc, used =>
    if max 1 opts.topK ≤ acc.length then acc
    else if ((s.score : ℝ) : EReal) < opts.minScore then walkAux chunks opts rest acc used
    else match chunks[s.i]? with
      | none => walkAux chunks opts rest acc used
      | some c =>
        if opts.maxTotalChars - used = 0 then acc
        else
          let excerpt := clipText c.text (min opts.maxChunkChars (opts.maxTotalChars - used))
          if excerpt = [] then walkAux chunks opts rest acc used
          else walkAux chunks opts rest
            (acc ++ [⟨{ c with text := excerpt }, s.score⟩]) (used + excerpt.length)

/-- `searchTfidf` from `retrieval.js`: score, sort, walk, and fall back to
the single highest-scoring chunk (truncated to
`min(maxChunkChars, maxTotalChars)`) when the walk accepted nothing. -/
def searchTfidf (index : TfidfIndex) (chunks : List Chunk) (query : Str)
    (opts : SearchOpts) : List SearchResult :=
  let scored := sortScored (searchScored index query)
  match walkAux chunks opts scored [] 0 with
  | r :: rs => r :: rs
  | [] =>
    match scored with
    | [] => []
    | best :: _ =>
      match chunks[best.i]? with
      | none => []
      | some c =>
        [⟨{ c with text := clipText c.text (min opts.maxChunkChars opts.maxTotalChars) }, best.score⟩]

/-! ## Server-level logic (`server.js`, `server/constants.js`, `summary.js`) -/

/-- One element of a response's `sources` array (fields beyond these are
not needed by the claims). -/
structure SourceRef where
  chunkId : Str
  pageStart : Nat
  pageEnd : Nat
deriving DecidableEq

/-- A chat response together with the number of generation-collaborator
calls the handler made to produce it. -/
structure ChatResponse where
  answer : Str
  sources : List SourceRef
  genCalls : Nat
deriving DecidableEq

/-- A summarizer result together with its generation-call count. -/
structure SummaryResult where
  summary : Str
  sources : List SourceRef
  genCalls : Nat
deriving DecidableEq

/-- A stored document as the chat and compare handlers read it. -/
structure StoredDoc where
  chunks : List Chunk
  totalExtractedChars : Nat

/-- The retrieval settings from `getSettings()` (`SETTINGS_DEFAULTS`). -/
structure ChatSettings where
  topK : Nat
  minSimilarity : ℝ
  maxChunkChars : Nat
  maxTotalContextChars : Nat

/-- The fixed no-readable-text chat answer of `POST /api/chat`. -/
def NO_TEXT_ANSWER : Str :=
  ("No readable text was extracted from this PDF, so I can't answer questions from it."
    ++ " If this is a scanned PDF, OCR support would be needed.").data

/-- The chat handler's leading guard: with no chunks or zero extracted
characters it answers the fixed message with no sources and no generation
call, whatever the rest of the handler (summary branch included) would
do. -/
def chatRespond (rest : StoredDoc → Str → ChatResponse) (doc : StoredDoc)
    (question : Str) : ChatResponse :=
  if doc.chunks.length = 0 ∨ doc.totalExtractedChars = 0 then ⟨NO_TEXT_ANSWER, [], 0⟩
  else rest doc question

/-- The fixed no-chunks summary of `summarizeDocument`. -/
def NO_CHUNKS_SUMMARY : Str := "No chunks available to summarize.".data

/-- `summarizeDocument`'s leading guard (`summary.js`): with no chunks it
returns the fixed message with no sources and no generation call, whatever
the map-reduce continuation would do. -/
def summarizeDocument (rest : StoredDoc → SummaryResult) (doc : StoredDoc) : SummaryResult :=
  if doc.chunks.length = 0 then ⟨NO_CHUNKS_SUMMARY, [], 0⟩ else rest doc

/-- The chat handler's retrieval call: `topK`, `maxChunkChars` and
`maxTotalChars` from settings, and no `minScore` (so the `-Infinity`
default applies). -/
def chatRetrieved (s : ChatSettings) (doc : StoredDoc) (query : Str) : List SearchResult :=
  searchTfidf (buildTfidfIndex doc.chunks) doc.chunks query
    ⟨s.topK, ⊥, s.maxChunkChars, s.maxTotalContextChars⟩

/-- `retrieved.filter((r) => r.score >= minSimilarity)`. -/
def chatStrong (s : ChatSettings) (doc : StoredDoc) (query : Str) : List SearchResult :=
  (chatRetrieved s doc query).filter (fun r => s.minSimilarity ≤ r.score)

/-- `const candidates = strong.length ? strong : retrieved`. -/
def chatCandidates (s : ChatSettings) (doc : StoredDoc) (query : Str) : List SearchResult :=
  if (chatStrong s doc query).length ≠ 0 then chatStrong s doc query
  else chatRetrieved s doc query

/-- The six comparison modes (`COMPARE_DEFAULTS.MODES`); `structure` and
`literal` are Lean keywords and carry a `Mode` suffix here. -/
inductive CompareMode
  | content
  | methodology
  | conclusions
  | structureMode
  | literalMode
  | custom
deriving DecidableEq

/-- `COMPARE_DEFAULTS.TOP_K_BONUS`. -/
def TOP_K_BONUS : Nat := 3

/-- `COMPARE_DEFAULTS.TOP_K_MAX_FOR_BONUS`. -/
def TOP_K_MAX_FOR_BONUS : Nat := 10

/-- `COMPARE_DEFAULTS.CONTEXT_SPLIT_FACTOR`. -/
def CONTEXT_SPLIT_FACTOR : Nat := 2

/-- `COMPARE_DEFAULTS.TOP_K_BONUS_MODES.has(mode)`. -/
def topKBonusMode : CompareMode → Bool
  | .literalMode => true
  | .structureMode => true
  | _ => false

/-- The per-mode `topK` of the compare handler. -/
def compareTopK (s : ChatSettings) (mode : CompareMode) : Nat :=
  if topKBonusMode mode then min TOP_K_MAX_FOR_BONUS (s.topK + TOP_K_BONUS) else s.topK

/-- The search options the compare handler passes for each side:
`minScore: minSimilarity` and half the global total budget. -/
def compareOpts (s : ChatSettings) (mode : CompareMode) : SearchOpts :=
  ⟨compareTopK s mode, ((s.minSimilarity : ℝ) : EReal), s.maxChunkChars,
    s.maxTotalContextChars / CONTEXT_SPLIT_FACTOR⟩

/-- The two independent retrievals of `POST /api/compare`, each against its
own document's index. -/
def compareRetrieve (s : ChatSettings) (mode : CompareMode) (docA docB : StoredDoc)
    (query : Str) : List SearchResult × List SearchResult :=
  (searchTfidf (buildTfidfIndex docA.chunks) docA.chunks query (compareOpts s mode),
   searchTfidf (buildTfidfIndex docB.chunks) docB.chunks query (compareOpts s mode))

end

/-- The keys of an association list. -/
def keysOf {α : Type} (m : List (Str × α)) : List Str := m.map (fun p => p.1)

/-- The JS-`Map` invariant: keys are pairwise distinct. -/
def KeysNodup {α : Type} (m : List (Str × α)) : Prop := (keysOf m).Nodup

/-- The number of per-chunk tf maps containing the term `t`: what the df
fold of `buildTfidfIndex` counts. -/
def dfCountTfs (tfs : List (List (Str × Nat))) (t : Str) : Nat :=
  tfs.countP (fun tf => (alookup tf t).isSome)

/-- The per-chunk tf maps that `buildTfidfIndex` computes. -/
def tfsOf (chunks : List Chunk) : List (List (Str × Nat)) :=
  (chunks.map (fun c => tokenize c.text)).map buildTf

/-- A string that ends in a non-whitespace character. -/
def EndsSolid (s : Str) : Prop := ∃ l ch, s = l ++ [ch] ∧ isWsChar ch = false

/-- A non-empty string with no leading and no trailing whitespace. -/
def SolidStr (s : Str) : Prop := s ≠ [] ∧ trimStart s = s ∧ trimEnd s = s

/-- The text of the last chunk, with a default for the empty list. -/
def lastTextD (prev : Str) (cs : List Chunk) : Str :=
  match cs.getLast? with
  | none => prev
  | some c => c.text

/-- A page whose text is non-empty and trimmed, as `normalizeText` yields. -/
def GoodPage (p : Page) : Prop := SolidStr p.text

/-- The loop invariant of `chunkPages`: either nothing has been emitted and
the buffer is exactly the processed pages, or the buffer is the last
emitted chunk's overlap seed followed by the pages processed since the
last flush, and the reconstruction of the emitted chunks plus the
separated suffix equals the join of all processed pages. -/
def ChunkInv (V : Nat) (pre : List Page) (st : CPState) : Prop :=
  (st.chunks = [] ∧ st.buf = pre)
  ∨ ∃ (cLast : Chunk) (b0 : Page) (sfx : List Page),
      st.chunks ≠ [] ∧ st.chunks.getLast? = some cLast ∧
      EndsSolid cLast.text ∧
      st.buf = b0 :: sfx ∧ b0.text = overlapSeed V cLast.text ∧
      (∀ p ∈ sfx, GoodPage p) ∧
      pre ≠ [] ∧
      recon V st.chunks ++ sepJoin (sfx.map (fun p => p.text)) =
        jsJoin sepNN (pre.map (fun p => p.text))

/-- The number of chunks containing the term `t` at least once (the spec's
`df(t)`). -/
def dfChunkCount (chunks : List Chunk) (t : Str) : Nat :=
  chunks.countP (fun c => decide (t ∈ tokenize c.text))

/-! ## Concrete instances used by witnesses and the counterexample -/

/-- A one-page chunk with text `"ab"`. -/
def cAB : Chunk := ⟨"c0".data, "d".data, 1, 1, "ab".data⟩

/-- A chunk with empty text (tokenizes to nothing, zero vector). -/
def cEmpty : Chunk := ⟨"c1".data, "d".data, 2, 2, [] ⟩

/-- A chunk whose text `"!!"` is non-empty but tokenizes to nothing. -/
def cBang : Chunk := ⟨"c2".data, "d".data, 1, 1, "!!".data⟩

noncomputable section

/-- Search options with a zero total character budget. -/
def cexOpts : SearchOpts := ⟨5, ⊥, 5, 0⟩

/-- The source's default search options. -/
def defaultOpts : SearchOpts := {}

/-- Concrete retrieval settings (the `SETTINGS_DEFAULTS` values). -/
def settings0 : ChatSettings := ⟨5, (1 : ℝ) / 10, 1200, 6500⟩

/-- A stored document holding the `"ab"` chunk. -/
def docAB : StoredDoc := ⟨[cAB], 2⟩

end

/-! ## Association-list lemmas -/

theorem alookup_nil {α : Type} (k : Str) : alookup ([] : List (Str × α)) k = none := rfl

theorem alookup_cons {α : Type} (p : Str × α) (m : List (Str × α)) (k : Str) :
    alookup (p :: m) k = if p.1 = k then some p.2 else alookup m k := by
  by_cases h : p.1 = k
  · rw [alookup, List.find?_cons_of_pos _ (by simpa using h), if_pos h]; rfl
  · rw [alookup, List.find?_cons_of_neg _ (by simpa using h), if_neg h]; rfl

theorem alookup_append_some {α : Type} {m1 : List (Str × α)} {k : Str} {v : α}
    (m2 : List (Str × α)) (h : alookup m1 k = some v) :
    alookup (m1 ++ m2) k = some v := by
  induction m1 with
  | nil => simp [alookup_nil] at h
  | cons p m ih =>
    rw [alookup_cons] at h
    rw [List.cons_append, alookup_cons]
    by_cases hp : p.1 = k
    · rwa [if_pos hp] at h ⊢
    · rw [if_neg hp] at h ⊢
      exact ih h

theorem alookup_append_none {α : Type} {m1 : List (Str × α)} {k : Str}
    (m2 : List (Str × α)) (h : alookup m1 k = none) :
    alookup (m1 ++ m2) k = alookup m2 k := by
  induction m1 with
  | nil => simp
  | cons p m ih =>
    rw [alookup_cons] at h
    rw [List.cons_append, alookup_cons]
    by_cases hp : p.1 = k
    · rw [if_pos hp] at h; exact absurd h (by simp)
    · rw [if_neg hp] at h ⊢
      exact ih h

theorem alookup_isSome_iff {α : Type} (m : List (Str × α)) (t : Str) :
    (alookup m t).isSome = true ↔ t ∈ m.map (fun p => p.1) := by
  induction m with
  | nil => simp [alookup_nil]
  | cons p m ih =>
    rw [alookup_cons]
    by_cases h : p.1 = t
    · rw [if_pos h]
      simp only [Option.isSome_some, List.map_cons, List.mem_cons, true_iff]
      exact Or.inl h.symm
    · rw [if_neg h]
      simp only [ih, List.map_cons, List.mem_cons]
      exact ⟨fun hm => Or.inr hm, fun hm => hm.elim (fun he => absurd he.symm h) id⟩

theorem alookup_eq_none_iff {α : Type} (m : List (Str × α)) (t : Str) :
    alookup m t = none ↔ t ∉ m.map (fun p => p.1) := by
  rw [← alookup_isSome_iff]
  cases alookup m t <;> simp

theorem incKey_of_some {m : List (Str × Nat)} {k : Str} {v : Nat}
    (h : alookup m k = some v) :
    incKey m k = m.map (fun p => if p.1 = k then (p.1, p.2 + 1) else p) := by
  unfold incKey
  rw [h]

theorem incKey_of_none {m : List (Str × Nat)} {k : Str} (h : alookup m k = none) :
    incKey m k = m ++ [(k, 1)] := by
  unfold incKey
  rw [h]

theorem alookup_map_inc (m : List (Str × Nat)) (k t : Str) :
    alookup (m.map (fun p => if p.1 = k then (p.1, p.2 + 1) else p)) t =
      if t = k then (alookup m t).map (fun x => x + 1) else alookup m t := by
  induction m with
  | nil => by_cases h : t = k <;> simp [alookup_nil, h]
  | cons p m ih =>
    rcases p with ⟨a, v⟩
    by_cases hak : a = k
    · subst hak
      by_cases hat : a = t
      · subst hat
        simp [alookup_cons]
      · have hta : ¬t = a := fun h => hat h.symm
        simp [alookup_cons, hat, hta, ih]
    · by_cases hat : a = t
      · subst hat
        simp [alookup_cons, hak, ih]
      · have hta : ¬t = a := fun h => hat h.symm
        simp [alookup_cons, hak, hat, hta, ih]

theorem alookup_incKey (m : List (Str × Nat)) (k t : Str) :
    alookup (incKey m k) t =
      if t = k then some ((alookup m k).getD 0 + 1) else alookup m t := by
  cases h : alookup m k with
  | some v =>
    rw [incKey_of_some h, alookup_map_inc]
    by_cases ht : t = k
    · rw [if_pos ht, if_pos ht, ht, h]
      rfl
    · rw [if_neg ht, if_neg ht]
  | none =>
    by_cases ht : t = k
    · subst ht
      rw [incKey_of_none h, alookup_append_none _ h, alookup_cons, if_pos rfl, if_pos rfl]
      rfl
    · rw [incKey_of_none h, if_neg ht]
      cases hm : alookup m t with
      | some v => exact alookup_append_some _ hm
      | none =>
        rw [alookup_append_none _ hm, alookup_cons,
          if_neg (fun h' : k = t => ht h'.symm), alookup_nil]


theorem alookup_isSome_iff_keys {α : Type} (m : List (Str × α)) (t : Str) :
    (alookup m t).isSome = true ↔ t ∈ keysOf m := alookup_isSome_iff m t

theorem alookup_eq_none_iff_keys {α : Type} (m : List (Str × α)) (t : Str) :
    alookup m t = none ↔ t ∉ keysOf m := alookup_eq_none_iff m t

theorem keysOf_incKey_some {m : List (Str × Nat)} {k : Str} {v : Nat}
    (h : alookup m k = some v) : keysOf (incKey m k) = keysOf m := by
  rw [incKey_of_some h]
  unfold keysOf
  rw [List.map_map]
  refine List.map_congr_left (fun p _ => ?_)
  by_cases hp : p.1 = k <;> simp [hp]

theorem keysOf_incKey_none {m : List (Str × Nat)} {k : Str}
    (h : alookup m k = none) : keysOf (incKey m k) = keysOf m ++ [k] := by
  rw [incKey_of_none h]
  simp [keysOf]

theorem keysNodup_incKey {m : List (Str × Nat)} (k : Str) (hm : KeysNodup m) :
    KeysNodup (incKey m k) := by
  unfold KeysNodup
  cases h : alookup m k with
  | some v => rw [keysOf_incKey_some h]; exact hm
  | none =>
    rw [keysOf_incKey_none h]
    refine hm.append (List.nodup_singleton k) ?_
    intro x hx hxk
    rw [List.mem_singleton] at hxk
    subst hxk
    have hnone := (alookup_eq_none_iff m x).1 h
    simp only [keysOf] at hx
    exact hnone hx

theorem keysNodup_foldl_incKey (toks : List Str) {m : List (Str × Nat)}
    (hm : KeysNodup m) : KeysNodup (toks.foldl incKey m) := by
  induction toks generalizing m with
  | nil => exact hm
  | cons a rest ih => exact ih (keysNodup_incKey a hm)

theorem keysNodup_buildTf (toks : List Str) : KeysNodup (buildTf toks) :=
  keysNodup_foldl_incKey toks (by simp [KeysNodup, keysOf])

theorem alookup_foldl_incKey_of_not_mem {t : Str} {toks : List Str}
    (h : t ∉ toks) (m : List (Str × Nat)) :
    alookup (toks.foldl incKey m) t = alookup m t := by
  induction toks generalizing m with
  | nil => rfl
  | cons a rest ih =>
    have hta : ¬t = a := fun he => h (he ▸ List.mem_cons_self a rest)
    rw [List.foldl_cons, ih (fun hr => h (List.mem_cons_of_mem a hr)), alookup_incKey,
      if_neg hta]

theorem alookup_foldl_incKey_of_mem {t : Str} {toks : List Str} (m : List (Str × Nat))
    (h : t ∈ toks ∨ (alookup m t).isSome = true) :
    alookup (toks.foldl incKey m) t = some ((alookup m t).getD 0 + toks.count t) := by
  induction toks generalizing m with
  | nil =>
    rcases h with h | h
    · exact absurd h (List.not_mem_nil t)
    · rcases Option.isSome_iff_exists.1 h with ⟨v, hv⟩
      simp [hv]
  | cons a rest ih =>
    rw [List.foldl_cons]
    by_cases hta : t = a
    · subst hta
      have hsome : (alookup (incKey m t) t).isSome = true := by
        rw [alookup_incKey, if_pos rfl]
        rfl
      rw [ih (incKey m t) (Or.inr hsome), alookup_incKey, if_pos rfl, List.count_cons_self]
      simp only [Option.getD_some, Option.some.injEq]
      omega
    · have hlook : alookup (incKey m a) t = alookup m t := by
        rw [alookup_incKey, if_neg hta]
      have hmem : t ∈ rest ∨ (alookup (incKey m a) t).isSome = true := by
        rcases h with h | h
        · exact Or.inl ((List.mem_cons.1 h).resolve_left hta)
        · exact Or.inr (hlook ▸ h)
      rw [ih (incKey m a) hmem, hlook, List.count_cons_of_ne hta]

theorem buildTf_alookup_of_mem {t : Str} {toks : List Str} (h : t ∈ toks) :
    alookup (buildTf toks) t = some (toks.count t) := by
  rw [buildTf, alookup_foldl_incKey_of_mem [] (Or.inl h)]
  simp [alookup_nil]

theorem buildTf_alookup_of_not_mem {t : Str} {toks : List Str} (h : t ∉ toks) :
    alookup (buildTf toks) t = none :=
  alookup_foldl_incKey_of_not_mem h []

theorem buildTf_isSome_iff (t : Str) (toks : List Str) :
    (alookup (buildTf toks) t).isSome = true ↔ t ∈ toks := by
  constructor
  · intro h
    by_contra hmem
    rw [buildTf_alookup_of_not_mem hmem] at h
    exact absurd h (by simp)
  · intro h
    rw [buildTf_alookup_of_mem h]
    rfl

theorem alookup_of_mem_keysNodup {α : Type} {m : List (Str × α)} {k : Str} {v : α}
    (hm : KeysNodup m) (h : (k, v) ∈ m) : alookup m k = some v := by
  induction m with
  | nil => exact absurd h (List.not_mem_nil _)
  | cons p rest ih =>
    have hm' : (p.1 :: keysOf rest).Nodup := by
      unfold KeysNodup keysOf at hm
      rwa [List.map_cons] at hm
    rcases List.mem_cons.1 h with h | h
    · rw [← h, alookup_cons, if_pos rfl]
    · have hk : k ∈ keysOf rest := List.mem_map.2 ⟨(k, v), h, rfl⟩
      have hpk : ¬p.1 = k := fun he => (List.nodup_cons.1 hm').1 (by rw [he]; exact hk)
      rw [alookup_cons, if_neg hpk]
      exact ih (List.nodup_cons.1 hm').2 h

theorem buildTf_value_pos {t : Str} {c : Nat} {toks : List Str}
    (h : (t, c) ∈ buildTf toks) : 1 ≤ c := by
  have hs := alookup_of_mem_keysNodup (keysNodup_buildTf toks) h
  have hmem : t ∈ toks := (buildTf_isSome_iff t toks).1 (by simp [hs])
  rw [buildTf_alookup_of_mem hmem] at hs
  have hc : c = toks.count t := by simpa using hs.symm
  rw [hc]
  exact List.count_pos_iff.2 hmem

theorem count_eq_one_of_nodup_mem {l : List Str} {t : Str} (hd : l.Nodup)
    (h : t ∈ l) : l.count t = 1 := by
  induction l with
  | nil => exact absurd h (List.not_mem_nil t)
  | cons a l ih =>
    rcases List.mem_cons.1 h with he | hm
    · subst he
      rw [List.count_cons_self]
      rw [List.count_eq_zero.2 (List.nodup_cons.1 hd).1]
    · have hne : t ≠ a := fun he => (List.nodup_cons.1 hd).1 (he ▸ hm)
      rw [List.count_cons_of_ne hne, ih (List.nodup_cons.1 hd).2 hm]


theorem df_step_eq (tf : List (Str × Nat)) (d : List (Str × Nat)) :
    tf.foldl (fun d p => incKey d p.1) d = (keysOf tf).foldl incKey d := by
  unfold keysOf
  rw [List.foldl_map]

theorem alookup_df_fold_of_none {t : Str} {tfs : List (List (Str × Nat))}
    (h : ∀ tf ∈ tfs, alookup tf t = none) (d0 : List (Str × Nat)) :
    alookup (tfs.foldl (fun df tf => tf.foldl (fun d p => incKey d p.1) df) d0) t =
      alookup d0 t := by
  induction tfs generalizing d0 with
  | nil => rfl
  | cons tf rest ih =>
    rw [List.foldl_cons, ih (fun x hx => h x (List.mem_cons_of_mem tf hx)), df_step_eq,
      alookup_foldl_incKey_of_not_mem]
    rw [← alookup_eq_none_iff_keys]
    exact h tf (List.mem_cons_self tf rest)

theorem alookup_df_fold_of_mem {t : Str} {tfs : List (List (Str × Nat))}
    (hn : ∀ tf ∈ tfs, KeysNodup tf) (d0 : List (Str × Nat))
    (h : (alookup d0 t).isSome = true ∨ ∃ tf ∈ tfs, (alookup tf t).isSome = true) :
    alookup (tfs.foldl (fun df tf => tf.foldl (fun d p => incKey d p.1) df) d0) t =
      some ((alookup d0 t).getD 0 + dfCountTfs tfs t) := by
  induction tfs generalizing d0 with
  | nil =>
    rcases h with h | ⟨tf, htf, _⟩
    · rcases Option.isSome_iff_exists.1 h with ⟨v, hv⟩
      simp [dfCountTfs, hv]
    · exact absurd htf (List.not_mem_nil tf)
  | cons tf rest ih =>
    rw [List.foldl_cons]
    by_cases hs : (alookup tf t).isSome = true
    · have hmemkeys : t ∈ keysOf tf := (alookup_isSome_iff_keys tf t).1 hs
      have hstep : alookup (tf.foldl (fun d p => incKey d p.1) d0) t =
          some ((alookup d0 t).getD 0 + 1) := by
        rw [df_step_eq, alookup_foldl_incKey_of_mem d0 (Or.inl hmemkeys),
          count_eq_one_of_nodup_mem (hn tf (List.mem_cons_self tf rest)) hmemkeys]
      rw [ih (fun x hx => hn x (List.mem_cons_of_mem tf hx)) _ (Or.inl (by rw [hstep]; rfl)),
        hstep]
      have hcount : dfCountTfs (tf :: rest) t = dfCountTfs rest t + 1 :=
        List.countP_cons_of_pos _ rest hs
      rw [hcount]
      simp only [Option.getD_some, Option.some.injEq]
      omega
    · have hnone : alookup tf t = none := Option.not_isSome_iff_eq_none.1 hs
      have hstep : alookup (tf.foldl (fun d p => incKey d p.1) d0) t = alookup d0 t := by
        rw [df_step_eq, alookup_foldl_incKey_of_not_mem]
        rw [← alookup_eq_none_iff_keys]
        exact hnone
      have hh : (alookup (tf.foldl (fun d p => incKey d p.1) d0) t).isSome = true ∨
          ∃ x ∈ rest, (alookup x t).isSome = true := by
        rcases h with h | ⟨x, hx, hxs⟩
        · exact Or.inl (by rw [hstep]; exact h)
        · rcases List.mem_cons.1 hx with he | hx
          · exact absurd (he ▸ hxs) hs
          · exact Or.inr ⟨x, hx, hxs⟩
      rw [ih (fun x hx => hn x (List.mem_cons_of_mem tf hx)) _ hh, hstep]
      have hcount : dfCountTfs (tf :: rest) t = dfCountTfs rest t :=
        List.countP_cons_of_neg _ rest (by simpa using hs)
      rw [hcount]

theorem buildDf_alookup_of_mem {t : Str} {tfs : List (List (Str × Nat))}
    (hn : ∀ tf ∈ tfs, KeysNodup tf) (h : ∃ tf ∈ tfs, (alookup tf t).isSome = true) :
    alookup (buildDf tfs) t = some (dfCountTfs tfs t) := by
  rw [buildDf, alookup_df_fold_of_mem hn [] (Or.inr h)]
  simp [alookup_nil]

theorem buildDf_alookup_of_none {t : Str} {tfs : List (List (Str × Nat))}
    (h : ∀ tf ∈ tfs, alookup tf t = none) :
    alookup (buildDf tfs) t = none := by
  rw [buildDf, alookup_df_fold_of_none h []]
  rfl

theorem keysNodup_buildDf (tfs : List (List (Str × Nat))) : KeysNodup (buildDf tfs) := by
  have main : ∀ (l : List (List (Str × Nat))) (d0 : List (Str × Nat)), KeysNodup d0 →
      KeysNodup (l.foldl (fun df tf => tf.foldl (fun d p => incKey d p.1) df) d0) := by
    intro l
    induction l with
    | nil => exact fun d0 h => h
    | cons tf rest ih =>
      intro d0 h0
      rw [List.foldl_cons]
      refine ih _ ?_
      rw [df_step_eq]
      exact keysNodup_foldl_incKey _ h0
  exact main tfs [] (by simp [KeysNodup, keysOf])

theorem mem_keysOf_buildDf_iff (t : Str) (tfs : List (List (Str × Nat)))
    (hn : ∀ tf ∈ tfs, KeysNodup tf) :
    t ∈ keysOf (buildDf tfs) ↔ ∃ tf ∈ tfs, (alookup tf t).isSome = true := by
  rw [← alookup_isSome_iff_keys]
  constructor
  · intro h
    by_contra hc
    push_neg at hc
    have hall : ∀ tf ∈ tfs, alookup tf t = none := by
      intro tf htf
      have := hc tf htf
      exact Option.not_isSome_iff_eq_none.1 (by simpa using this)
    rw [buildDf_alookup_of_none hall] at h
    exact absurd h (by simp)
  · intro h
    rw [buildDf_alookup_of_mem hn h]
    rfl

/-! ## Vocabulary-index (enumerated map) lemmas -/

theorem alookup_enumIdx_some {l : List Str} {t : Str} {j : Nat}
    (h : alookup (l.enum.map (fun p => (p.2, p.1))) t = some j) : l[j]? = some t := by
  unfold alookup at h
  rw [List.find?_map] at h
  rcases hf : l.enum.find? ((fun p => p.1 == t) ∘ fun p => (p.2, p.1)) with _ | q
  · rw [hf] at h
    exact absurd h (by simp)
  · rw [hf] at h
    have hq2 : q.2 = t := by
      have := List.find?_some hf
      simpa using this
    have hq1 : q.1 = j := by
      simp only [Option.map_some'] at h
      exact Option.some.injEq _ _ ▸ (by simpa using h)
    have hqmem : q ∈ l.enum := List.mem_of_find?_eq_some hf
    have := List.mem_enum_iff_getElem?.1 hqmem
    rw [hq1, hq2] at this
    exact this

theorem alookup_enumIdx_isSome {l : List Str} {t : Str} (h : t ∈ l) :
    (alookup (l.enum.map (fun p => (p.2, p.1))) t).isSome = true := by
  unfold alookup
  rcases List.mem_iff_getElem?.1 h with ⟨j, hj⟩
  have : ((j, t) : Nat × Str) ∈ l.enum := List.mk_mem_enum_iff_getElem?.2 hj
  have hfind : (l.enum.find? ((fun p => p.1 == t) ∘ fun p : Nat × Str => (p.2, p.1))).isSome = true := by
    rw [List.find?_isSome]
    exact ⟨(j, t), this, by simp⟩
  rw [List.find?_map]
  rcases Option.isSome_iff_exists.1 hfind with ⟨q, hq⟩
  simp [hq]

/-! ## Real-vector lemmas -/

theorem dotR_nil_left (b : List ℝ) : dotR [] b = 0 := by
  simp [dotR]

theorem dotR_nil_right (a : List ℝ) : dotR a [] = 0 := by
  simp [dotR]

theorem dotR_cons (a b : ℝ) (as bs : List ℝ) :
    dotR (a :: as) (b :: bs) = a * b + dotR as bs := by
  simp [dotR]

theorem dotR_self_nonneg (a : List ℝ) : 0 ≤ dotR a a := by
  induction a with
  | nil => simp [dotR_nil_left]
  | cons x xs ih =>
    rw [dotR_cons]
    nlinarith [mul_self_nonneg x]

theorem dotR_replicate_zero_left (n : Nat) (v : List ℝ) :
    dotR (List.replicate n 0) v = 0 := by
  induction n generalizing v with
  | zero => simp [dotR_nil_left]
  | succ m ih =>
    cases v with
    | nil => simp [dotR_nil_right]
    | cons b bs =>
      rw [List.replicate_succ, dotR_cons, ih]
      ring

theorem dotR_self_eq_zero_of_all_zero {a : List ℝ} (h : ∀ x ∈ a, x = 0) :
    dotR a a = 0 := by
  induction a with
  | nil => simp [dotR_nil_left]
  | cons x xs ih =>
    rw [dotR_cons, h x (List.mem_cons_self x xs),
      ih (fun y hy => h y (List.mem_cons_of_mem x hy))]
    ring

theorem all_zero_of_dotR_self_eq_zero {a : List ℝ} (h : dotR a a = 0) :
    ∀ x ∈ a, x = 0 := by
  induction a with
  | nil => simp
  | cons x xs ih =>
    rw [dotR_cons] at h
    have hx2 : 0 ≤ x * x := mul_self_nonneg x
    have hxs : 0 ≤ dotR xs xs := dotR_self_nonneg xs
    have hx : x * x = 0 := by linarith
    have hxz : x = 0 := by nlinarith
    intro y hy
    rcases List.mem_cons.1 hy with hy | hy
    · exact hy ▸ hxz
    · exact ih (by linarith) y hy

theorem getD_sq_le_dotR_self (a : List ℝ) (j : Nat) (hj : j < a.length) :
    a.getD j 0 * a.getD j 0 ≤ dotR a a := by
  induction a generalizing j with
  | nil => simp at hj
  | cons x xs ih =>
    rw [dotR_cons]
    cases j with
    | zero =>
      simp only [List.getD_cons_zero]
      nlinarith [dotR_self_nonneg xs]
    | succ m =>
      simp only [List.getD_cons_succ]
      have := ih m (by simpa using hj)
      nlinarith [mul_self_nonneg x]

theorem dotR_map_div (a b : List ℝ) (n : ℝ) :
    dotR (a.map (fun x => x / n)) (b.map (fun x => x / n)) = dotR a b / (n * n) := by
  unfold dotR
  rw [List.zip_map]
  rw [List.map_map]
  induction a.zip b with
  | nil => simp
  | cons p ps ih =>
    rw [List.map_cons, List.map_cons, List.sum_cons, List.sum_cons, ih]
    rcases p with ⟨x, y⟩
    simp only [Function.comp, Prod.map_fst, Prod.map_snd]
    field_simp

theorem normR_of_dot_zero {v : List ℝ} (h : dotR v v = 0) : normR v = 1 := by
  unfold normR
  rw [h, Real.sqrt_zero, if_pos rfl]

theorem normR_of_dot_ne_zero {v : List ℝ} (h : dotR v v ≠ 0) :
    normR v = Real.sqrt (dotR v v) := by
  unfold normR
  rw [if_neg]
  intro hz
  have h0 : 0 ≤ dotR v v := dotR_self_nonneg v
  have := Real.sqrt_eq_zero'.1 hz
  exact h (le_antisymm this h0)

theorem normalizeVec_of_dot_zero {v : List ℝ} (h : dotR v v = 0) :
    normalizeVec v = v := by
  unfold normalizeVec
  rw [normR_of_dot_zero h]
  simp

theorem length_normalizeVec (v : List ℝ) : (normalizeVec v).length = v.length := by
  simp [normalizeVec]

theorem dotR_normalizeVec_self {v : List ℝ} (h : dotR v v ≠ 0) :
    dotR (normalizeVec v) (normalizeVec v) = 1 := by
  have h0 : 0 ≤ dotR v v := dotR_self_nonneg v
  have hpos : 0 < dotR v v := lt_of_le_of_ne h0 (Ne.symm h)
  unfold normalizeVec
  rw [dotR_map_div, normR_of_dot_ne_zero h]
  rw [Real.mul_self_sqrt h0]
  exact div_self h

theorem sqrt_dotR_normalizeVec_self {v : List ℝ} (h : dotR v v ≠ 0) :
    Real.sqrt (dotR (normalizeVec v) (normalizeVec v)) = 1 := by
  rw [dotR_normalizeVec_self h, Real.sqrt_one]

/-! ## `weightVec` lemmas -/

theorem weightVec_step_length (vI : List (Str × Nat)) (idf : List ℝ)
    (tf : List (Str × Nat)) (acc : List ℝ) :
    (tf.foldl (fun vec p =>
      match alookup vI p.1 with
      | none => vec
      | some j => vec.set j ((p.2 : ℝ) * idf.getD j 0)) acc).length = acc.length := by
  induction tf generalizing acc with
  | nil => rfl
  | cons p ps ih =>
    rw [List.foldl_cons]
    cases alookup vI p.1 with
    | none => exact ih acc
    | some j => rw [ih]; exact List.length_set acc j _

theorem length_weightVec (vI : List (Str × Nat)) (idf : List ℝ) (len : Nat)
    (tf : List (Str × Nat)) : (weightVec vI idf len tf).length = len := by
  unfold weightVec
  rw [weightVec_step_length]
  exact List.length_replicate len 0

theorem weightVec_fold_untouched (vI : List (Str × Nat)) (idf : List ℝ)
    {tf : List (Str × Nat)} {j : Nat}
    (h : ∀ p ∈ tf, alookup vI p.1 ≠ some j) (acc : List ℝ) :
    (tf.foldl (fun vec p =>
      match alookup vI p.1 with
      | none => vec
      | some j => vec.set j ((p.2 : ℝ) * idf.getD j 0)) acc)[j]? = acc[j]? := by
  induction tf generalizing acc with
  | nil => rfl
  | cons p ps ih =>
    rw [List.foldl_cons]
    cases hp : alookup vI p.1 with
    | none => exact ih (fun q hq => h q (List.mem_cons_of_mem p hq)) acc
    | some j' =>
      rw [ih (fun q hq => h q (List.mem_cons_of_mem p hq))]
      have hj' : j' ≠ j := fun he => h p (List.mem_cons_self p ps) (he ▸ hp)
      exact List.getElem?_set_ne hj'

theorem weightVec_getElem_of_mem {vI : List (Str × Nat)} {idf : List ℝ} {len : Nat}
    {tf : List (Str × Nat)} {t : Str} {c : Nat} {j : Nat}
    (hnodup : KeysNodup tf) (hmem : (t, c) ∈ tf) (hj : alookup vI t = some j)
    (hinj : ∀ t', alookup vI t' = some j → t' = t) (hlen : j < len) :
    (weightVec vI idf len tf)[j]? = some ((c : ℝ) * idf.getD j 0) := by
  rcases List.append_of_mem hmem with ⟨pre, post, hsplit⟩
  unfold weightVec
  rw [hsplit, List.foldl_append, List.foldl_cons, hj]
  have hpostkeys : ∀ p ∈ post, alookup vI p.1 ≠ some j := by
    intro p hp he
    have hpt : p.1 = t := hinj p.1 he
    have hmemt : t ∈ keysOf post := List.mem_map.2 ⟨p, hp, hpt⟩
    have hnd : KeysNodup (pre ++ (t, c) :: post) := hsplit ▸ hnodup
    unfold KeysNodup keysOf at hnd
    rw [List.map_append, List.map_cons] at hnd
    have hcons := (List.nodup_append.1 hnd).2.1
    exact (List.nodup_cons.1 hcons).1 (by simpa [keysOf] using hmemt)
  rw [weightVec_fold_untouched vI idf hpostkeys]
  refine List.getElem?_set_self ?_
  rw [weightVec_step_length]
  rw [List.length_replicate]
  exact hlen

/-! ## Index-level lemmas -/

theorem mem_of_alookup_some {α : Type} {m : List (Str × α)} {k : Str} {v : α}
    (h : alookup m k = some v) : (k, v) ∈ m := by
  unfold alookup at h
  rcases hf : m.find? (fun p => p.1 == k) with _ | q
  · rw [hf] at h
    exact absurd h (by simp)
  · rw [hf] at h
    have hq1 : q.1 = k := by simpa using List.find?_some hf
    have hq2 : q.2 = v := by simpa using h
    have : q ∈ m := List.mem_of_find?_eq_some hf
    rwa [show ((k, v) : Str × α) = q from by rw [← hq1, ← hq2]]


theorem buildTfidfIndex_vocab (chunks : List Chunk) :
    (buildTfidfIndex chunks).vocab = keysOf (buildDf (tfsOf chunks)) := rfl

theorem buildTfidfIndex_vocabIndex (chunks : List Chunk) :
    (buildTfidfIndex chunks).vocabIndex =
      (buildTfidfIndex chunks).vocab.enum.map (fun p => (p.2, p.1)) := rfl

theorem buildTfidfIndex_idf (chunks : List Chunk) :
    (buildTfidfIndex chunks).idf =
      (buildTfidfIndex chunks).vocab.map
        (idfOf chunks.length (buildDf (tfsOf chunks))) := rfl

theorem buildTfidfIndex_vectors (chunks : List Chunk) :
    (buildTfidfIndex chunks).vectors =
      (tfsOf chunks).map (fun tf =>
        normalizeVec (weightVec (buildTfidfIndex chunks).vocabIndex
          (buildTfidfIndex chunks).idf (buildTfidfIndex chunks).vocab.length tf)) := rfl

theorem tfsOf_keysNodup (chunks : List Chunk) : ∀ tf ∈ tfsOf chunks, KeysNodup tf := by
  intro tf htf
  rcases List.mem_map.1 htf with ⟨toks, _, rfl⟩
  exact keysNodup_buildTf toks

theorem tfsOf_length (chunks : List Chunk) : (tfsOf chunks).length = chunks.length := by
  simp [tfsOf]

theorem vocab_df_value (chunks : List Chunk) {t : Str}
    (ht : t ∈ (buildTfidfIndex chunks).vocab) :
    alookup (buildDf (tfsOf chunks)) t = some (dfCountTfs (tfsOf chunks) t) ∧
      1 ≤ dfCountTfs (tfsOf chunks) t ∧ dfCountTfs (tfsOf chunks) t ≤ chunks.length := by
  rw [buildTfidfIndex_vocab] at ht
  have hex : ∃ tf ∈ tfsOf chunks, (alookup tf t).isSome = true :=
    (mem_keysOf_buildDf_iff t (tfsOf chunks) (tfsOf_keysNodup chunks)).1 ht
  refine ⟨buildDf_alookup_of_mem (tfsOf_keysNodup chunks) hex, ?_, ?_⟩
  · rcases hex with ⟨tf, htf, hs⟩
    exact List.countP_pos_iff.2 ⟨tf, htf, hs⟩
  · calc dfCountTfs (tfsOf chunks) t ≤ (tfsOf chunks).length := List.countP_le_length _
      _ = chunks.length := tfsOf_length chunks

theorem one_le_idf_formula {N d : Nat} (h : d ≤ N) :
    1 ≤ Real.log (((N : ℝ) + 1) / ((d : ℝ) + 1)) + 1 := by
  have hlog : 0 ≤ Real.log (((N : ℝ) + 1) / ((d : ℝ) + 1)) := by
    refine Real.log_nonneg ?_
    rw [le_div_iff₀ (by positivity)]
    have : (d : ℝ) ≤ (N : ℝ) := by exact_mod_cast h
    linarith
  linarith

theorem idfOf_vocab_value (chunks : List Chunk) {t : Str}
    (ht : t ∈ (buildTfidfIndex chunks).vocab) :
    idfOf chunks.length (buildDf (tfsOf chunks)) t =
      Real.log (((chunks.length : ℝ) + 1) / ((dfCountTfs (tfsOf chunks) t : ℝ) + 1)) + 1 := by
  rcases vocab_df_value chunks ht with ⟨hdf, hpos, _⟩
  unfold idfOf
  rw [hdf]
  have hne : ¬(some (dfCountTfs (tfsOf chunks) t)).getD 0 = 0 := by
    simp only [Option.getD_some]
    omega
  rw [if_neg hne]
  simp

theorem one_le_idfOf_vocab (chunks : List Chunk) {t : Str}
    (ht : t ∈ (buildTfidfIndex chunks).vocab) :
    1 ≤ idfOf chunks.length (buildDf (tfsOf chunks)) t := by
  rcases vocab_df_value chunks ht with ⟨_, _, hle⟩
  rw [idfOf_vocab_value chunks ht]
  exact one_le_idf_formula hle

theorem mem_of_getElem?_some {α : Type} {l : List α} {j : Nat} {a : α}
    (h : l[j]? = some a) : a ∈ l := by
  rcases List.getElem?_eq_some.1 h with ⟨hlt, rfl⟩
  exact List.getElem_mem hlt

theorem vectors_getElem (chunks : List Chunk) {i : Nat} {c : Chunk}
    (hc : chunks[i]? = some c) :
    (buildTfidfIndex chunks).vectors[i]? =
      some (normalizeVec (weightVec (buildTfidfIndex chunks).vocabIndex
        (buildTfidfIndex chunks).idf (buildTfidfIndex chunks).vocab.length
        (buildTf (tokenize c.text)))) := by
  rw [buildTfidfIndex_vectors, List.getElem?_map]
  unfold tfsOf
  rw [List.getElem?_map, List.getElem?_map, hc]
  rfl

theorem buildTf_mem_tfsOf {chunks : List Chunk} {c : Chunk} (hc : c ∈ chunks) :
    buildTf (tokenize c.text) ∈ tfsOf chunks := by
  unfold tfsOf
  exact List.mem_map.2 ⟨tokenize c.text, List.mem_map.2 ⟨c, hc, rfl⟩, rfl⟩

/-- A chunk with at least one token puts its first token's weight, which is
positive, into its raw vector; the raw vector's self-dot is therefore
nonzero. -/
theorem rawVec_dot_ne_zero {chunks : List Chunk} {c : Chunk}
    (hc : c ∈ chunks) (htok : tokenize c.text ≠ []) :
    dotR (weightVec (buildTfidfIndex chunks).vocabIndex (buildTfidfIndex chunks).idf
        (buildTfidfIndex chunks).vocab.length (buildTf (tokenize c.text)))
      (weightVec (buildTfidfIndex chunks).vocabIndex (buildTfidfIndex chunks).idf
        (buildTfidfIndex chunks).vocab.length (buildTf (tokenize c.text))) ≠ 0 := by
  rcases List.exists_mem_of_ne_nil _ htok with ⟨t, ht⟩
  set toks := tokenize c.text with htoks
  set vocab := (buildTfidfIndex chunks).vocab with hvocab
  set vI := (buildTfidfIndex chunks).vocabIndex with hvI
  set idf := (buildTfidfIndex chunks).idf with hidf
  set w := weightVec vI idf vocab.length (buildTf toks) with hw
  -- the term is in the vocabulary
  have htf : (alookup (buildTf toks) t).isSome = true := (buildTf_isSome_iff t toks).2 ht
  have htv : t ∈ vocab := by
    rw [hvocab, buildTfidfIndex_vocab]
    exact (mem_keysOf_buildDf_iff t (tfsOf chunks) (tfsOf_keysNodup chunks)).2
      ⟨buildTf toks, buildTf_mem_tfsOf hc, htf⟩
  -- its slot in the vocabulary index
  have hvIsome : (alookup vI t).isSome = true := by
    rw [hvI, buildTfidfIndex_vocabIndex]
    exact alookup_enumIdx_isSome htv
  rcases Option.isSome_iff_exists.1 hvIsome with ⟨j, hj⟩
  have hvj : vocab[j]? = some t := by
    refine alookup_enumIdx_some ?_
    rw [← buildTfidfIndex_vocabIndex]
    exact hj
  have hjlt : j < vocab.length := (List.getElem?_eq_some.1 hvj).1
  -- the tf entry of the term
  have hcount : alookup (buildTf toks) t = some (toks.count t) := buildTf_alookup_of_mem ht
  have hmemtf : (t, toks.count t) ∈ buildTf toks := mem_of_alookup_some hcount
  -- the idf weight at the slot
  have hidfj : idf[j]? = some (idfOf chunks.length (buildDf (tfsOf chunks)) t) := by
    rw [hidf, buildTfidfIndex_idf, List.getElem?_map, hvj]
    rfl
  have hidfval : 1 ≤ idf.getD j 0 := by
    rw [List.getD_eq_getElem?_getD, hidfj]
    exact one_le_idfOf_vocab chunks htv
  -- the slot of the raw vector
  have hinj : ∀ t', alookup vI t' = some j → t' = t := by
    intro t' hj'
    have hvj' : vocab[j]? = some t' := by
      refine alookup_enumIdx_some ?_
      rw [← buildTfidfIndex_vocabIndex]
      exact hj'
    rw [hvj] at hvj'
    exact (Option.some.injEq _ _ ▸ hvj').symm
  have hwj : w[j]? = some ((toks.count t : ℝ) * idf.getD j 0) := by
    rw [hw]
    exact weightVec_getElem_of_mem (keysNodup_buildTf toks) hmemtf hj hinj hjlt
  have hwval : 0 < w.getD j 0 := by
    rw [List.getD_eq_getElem?_getD, hwj, Option.getD_some]
    have hcpos : (1 : ℝ) ≤ (toks.count t : ℝ) := by
      exact_mod_cast List.count_pos_iff.2 ht
    nlinarith
  have hwlen : j < w.length := by
    rw [hw, length_weightVec]
    exact hjlt
  have hsq := getD_sq_le_dotR_self w j hwlen
  nlinarith

/-- Every stored index vector is the zero vector (chunk tokenizes to
nothing) or has L2 norm exactly 1. -/
theorem vector_unit_or_zero {chunks : List Chunk} {i : Nat} {c : Chunk} {v : List ℝ}
    (hc : chunks[i]? = some c) (hv : (buildTfidfIndex chunks).vectors[i]? = some v) :
    (tokenize c.text = [] → v = List.replicate (buildTfidfIndex chunks).vocab.length 0) ∧
      (tokenize c.text ≠ [] → Real.sqrt (dotR v v) = 1) := by
  have hveq := vectors_getElem chunks hc
  rw [hv] at hveq
  have hvval : v = normalizeVec (weightVec (buildTfidfIndex chunks).vocabIndex
      (buildTfidfIndex chunks).idf (buildTfidfIndex chunks).vocab.length
      (buildTf (tokenize c.text))) := by
    injection hveq
  constructor
  · intro htok
    rw [hvval, htok]
    have hzero : dotR (List.replicate (buildTfidfIndex chunks).vocab.length (0 : ℝ))
        (List.replicate (buildTfidfIndex chunks).vocab.length (0 : ℝ)) = 0 :=
      dotR_replicate_zero_left _ _
    show normalizeVec (weightVec _ _ _ (buildTf (tokenize []))) = _
    have : buildTf (tokenize ([] : Str)) = [] := rfl
    rw [show tokenize ([] : Str) = [] from rfl] at *
    rw [show buildTf ([] : List Str) = [] from rfl]
    rw [show weightVec (buildTfidfIndex chunks).vocabIndex (buildTfidfIndex chunks).idf
        (buildTfidfIndex chunks).vocab.length [] =
        List.replicate (buildTfidfIndex chunks).vocab.length 0 from rfl]
    exact normalizeVec_of_dot_zero hzero
  · intro htok
    rw [hvval]
    exact sqrt_dotR_normalizeVec_self
      (rawVec_dot_ne_zero (mem_of_getElem?_some hc) htok)

/-! ## Sorting lemmas -/

theorem sortScored_nil : sortScored [] = [] := rfl

theorem sortScored_cons (a : ScoredItem) (l : List ScoredItem) :
    sortScored (a :: l) = insertDesc a (sortScored l) := rfl

theorem mem_insertDesc {x y : ScoredItem} {l : List ScoredItem} :
    y ∈ insertDesc x l ↔ y = x ∨ y ∈ l := by
  induction l with
  | nil => simp [insertDesc]
  | cons z zs ih =>
    unfold insertDesc
    by_cases h : z.score < x.score
    · rw [if_pos h]
      constructor
      · intro hm
        rcases List.mem_cons.1 hm with hm | hm
        · exact Or.inl hm
        · exact Or.inr hm
      · intro hm
        rcases hm with hm | hm
        · rw [hm]; exact List.mem_cons_self x _
        · exact List.mem_cons_of_mem x hm
    · rw [if_neg h]
      constructor
      · intro hm
        rcases List.mem_cons.1 hm with hm | hm
        · exact Or.inr (by rw [hm]; exact List.mem_cons_self z zs)
        · rcases ih.1 hm with hm | hm
          · exact Or.inl hm
          · exact Or.inr (List.mem_cons_of_mem z hm)
      · intro hm
        rcases hm with hm | hm
        · exact List.mem_cons_of_mem z (ih.2 (Or.inl hm))
        · rcases List.mem_cons.1 hm with hm | hm
          · exact (by rw [hm]; exact List.mem_cons_self z _)
          · exact List.mem_cons_of_mem z (ih.2 (Or.inr hm))

theorem mem_sortScored {y : ScoredItem} {l : List ScoredItem} :
    y ∈ sortScored l ↔ y ∈ l := by
  induction l with
  | nil => simp [sortScored_nil]
  | cons a as ih =>
    rw [sortScored_cons, mem_insertDesc, ih, List.mem_cons]

theorem insertDesc_ne_nil (x : ScoredItem) (l : List ScoredItem) :
    insertDesc x l ≠ [] := by
  cases l with
  | nil => simp [insertDesc]
  | cons z zs =>
    unfold insertDesc
    by_cases h : z.score < x.score
    · rw [if_pos h]; simp
    · rw [if_neg h]; simp

theorem sortScored_eq_nil_iff {l : List ScoredItem} : sortScored l = [] ↔ l = [] := by
  cases l with
  | nil => simp [sortScored_nil]
  | cons a as =>
    rw [sortScored_cons]
    simp only [iff_false_intro (List.cons_ne_nil a as), iff_false]
    exact insertDesc_ne_nil a (sortScored as)

theorem sortScored_head_ge {l : List ScoredItem} {x : ScoredItem} {xs : List ScoredItem}
    (h : sortScored l = x :: xs) : ∀ y ∈ l, y.score ≤ x.score := by
  induction l generalizing x xs with
  | nil => simp [sortScored_nil] at h
  | cons a as ih =>
    rw [sortScored_cons] at h
    rcases hs : sortScored as with _ | ⟨b, bs⟩
    · rw [hs] at h
      unfold insertDesc at h
      have hae : a = x := by
        have := h
        simp only [List.cons.injEq] at this
        exact this.1
      intro y hy
      rcases List.mem_cons.1 hy with hy | hy
      · rw [hy, hae]
      · rw [sortScored_eq_nil_iff.1 hs] at hy
        exact absurd hy (List.not_mem_nil y)
    · rw [hs] at h
      unfold insertDesc at h
      by_cases hcmp : b.score < a.score
      · rw [if_pos hcmp] at h
        have hax : a = x := by
          simp only [List.cons.injEq] at h
          exact h.1
        intro y hy
        rcases List.mem_cons.1 hy with hy | hy
        · rw [hy, hax]
        · have hyb := ih hs y hy
          rw [← hax]
          exact le_of_lt (lt_of_le_of_lt hyb hcmp)
      · rw [if_neg hcmp] at h
        have hbx : b = x := by
          simp only [List.cons.injEq] at h
          exact h.1
        intro y hy
        rcases List.mem_cons.1 hy with hy | hy
        · rw [hy, ← hbx]
          exact le_of_not_lt hcmp
        · rw [← hbx]
          exact ih hs y hy

theorem sortScored_head_of_strict_max {l : List ScoredItem} {x : ScoredItem}
    (hx : x ∈ l) (hmax : ∀ y ∈ l, y ≠ x → y.score < x.score) :
    ∃ xs, sortScored l = x :: xs := by
  rcases hs : sortScored l with _ | ⟨h0, hs'⟩
  · exact absurd (sortScored_eq_nil_iff.1 hs ▸ hx) (List.not_mem_nil x)
  · have hh0 : h0 ∈ l := mem_sortScored.1 (by rw [hs]; exact List.mem_cons_self h0 hs')
    have hge : x.score ≤ h0.score := sortScored_head_ge hs x hx
    by_cases he : h0 = x
    · exact ⟨hs', by rw [← he]⟩
    · exact absurd hge (not_le.2 (hmax h0 hh0 he))

/-! ## `clipText` and walk lemmas -/

theorem clipText_eq_nil_iff (t : Str) (m : Nat) : clipText t m = [] ↔ t = [] := by
  unfold clipText
  by_cases h0 : t = []
  · simp [h0]
  · rw [if_neg h0]
    by_cases hm : m = 0
    · simp [hm, h0]
    · rw [if_neg hm]
      by_cases hlen : t.length ≤ m
      · simp [hlen, h0]
      · simp [hlen, h0]

theorem clipText_length_le {t : Str} {m : Nat} (h : 1 ≤ m) :
    (clipText t m).length ≤ m := by
  unfold clipText
  by_cases h0 : t = []
  · simp [h0]
  · rw [if_neg h0, if_neg (by omega : ¬m = 0)]
    by_cases hlen : t.length ≤ m
    · rwa [if_pos hlen]
    · rw [if_neg hlen]
      rw [List.length_append, List.length_take]
      simp only [List.length_singleton]
      omega

theorem walkAux_extends (chunks : List Chunk) (opts : SearchOpts) :
    ∀ (scored : List ScoredItem) (acc : List SearchResult) (used : Nat),
      ∃ t, walkAux chunks opts scored acc used = acc ++ t := by
  intro scored
  induction scored with
  | nil => exact fun acc used => ⟨[], by simp [walkAux]⟩
  | cons s rest ih =>
    intro acc used
    unfold walkAux
    by_cases hlen : max 1 opts.topK ≤ acc.length
    · rw [if_pos hlen]
      exact ⟨[], by simp⟩
    · rw [if_neg hlen]
      by_cases hmin : ((s.score : ℝ) : EReal) < opts.minScore
      · rw [if_pos hmin]
        exact ih acc used
      · rw [if_neg hmin]
        cases hc : chunks[s.i]? with
        | none => exact ih acc used
        | some c =>
          dsimp only
          by_cases hrem : opts.maxTotalChars - used = 0
          · rw [if_pos hrem]
            exact ⟨[], by simp⟩
          · rw [if_neg hrem]
            by_cases hex : clipText c.text (min opts.maxChunkChars (opts.maxTotalChars - used)) = []
            · rw [if_pos hex]
              exact ih acc used
            · rw [if_neg hex]
              rcases ih (acc ++ [⟨{ c with text := clipText c.text (min opts.maxChunkChars (opts.maxTotalChars - used)) }, s.score⟩]) (used + (clipText c.text (min opts.maxChunkChars (opts.maxTotalChars - used))).length) with ⟨t, ht⟩
              exact ⟨[⟨{ c with text := clipText c.text (min opts.maxChunkChars (opts.maxTotalChars - used)) }, s.score⟩] ++ t, by rw [ht, List.append_assoc]⟩

theorem walkAux_shape (chunks : List Chunk) (opts : SearchOpts) :
    ∀ (scored : List ScoredItem) (acc : List SearchResult) (used : Nat),
      ∀ r ∈ walkAux chunks opts scored acc used,
        r ∈ acc ∨ ∃ (i : Nat) (c : Chunk) (m : Nat), chunks[i]? = some c ∧
          r.chunk = { c with text := clipText c.text m } := by
  intro scored
  induction scored with
  | nil =>
    intro acc used r hr
    exact Or.inl (by simpa [walkAux] using hr)
  | cons s rest ih =>
    intro acc used r hr
    unfold walkAux at hr
    by_cases hlen : max 1 opts.topK ≤ acc.length
    · rw [if_pos hlen] at hr
      exact Or.inl hr
    · rw [if_neg hlen] at hr
      by_cases hmin : ((s.score : ℝ) : EReal) < opts.minScore
      · rw [if_pos hmin] at hr
        exact ih acc used r hr
      · rw [if_neg hmin] at hr
        cases hc : chunks[s.i]? with
        | none =>
          rw [hc] at hr
          exact ih acc used r hr
        | some c =>
          rw [hc] at hr
          dsimp only at hr
          by_cases hrem : opts.maxTotalChars - used = 0
          · rw [if_pos hrem] at hr
            exact Or.inl hr
          · rw [if_neg hrem] at hr
            by_cases hex : clipText c.text (min opts.maxChunkChars (opts.maxTotalChars - used)) = []
            · rw [if_pos hex] at hr
              exact ih acc used r hr
            · rw [if_neg hex] at hr
              rcases ih _ _ r hr with hin | hshape
              · rcases List.mem_append.1 hin with hin | hin
                · exact Or.inl hin
                · rw [List.mem_singleton] at hin
                  exact Or.inr ⟨s.i, c, min opts.maxChunkChars (opts.maxTotalChars - used),
                    hc, by rw [hin]⟩
              · exact Or.inr hshape

theorem walkAux_budget (chunks : List Chunk) (opts : SearchOpts)
    (hchunk : 1 ≤ opts.maxChunkChars) (htotal : 1 ≤ opts.maxTotalChars) :
    ∀ (scored : List ScoredItem) (acc : List SearchResult) (used : Nat),
      (acc.map (fun r => r.chunk.text.length)).sum ≤ used →
      used ≤ opts.maxTotalChars →
      (∀ r ∈ acc, r.chunk.text.length ≤ opts.maxChunkChars) →
      ((walkAux chunks opts scored acc used).map (fun r => r.chunk.text.length)).sum ≤
          opts.maxTotalChars ∧
        ∀ r ∈ walkAux chunks opts scored acc used,
          r.chunk.text.length ≤ opts.maxChunkChars := by
  intro scored
  induction scored with
  | nil =>
    intro acc used hsum hused hper
    exact ⟨le_trans hsum hused, hper⟩
  | cons s rest ih =>
    intro acc used hsum hused hper
    unfold walkAux
    by_cases hlen : max 1 opts.topK ≤ acc.length
    · rw [if_pos hlen]
      exact ⟨le_trans hsum hused, hper⟩
    · rw [if_neg hlen]
      by_cases hmin : ((s.score : ℝ) : EReal) < opts.minScore
      · rw [if_pos hmin]
        exact ih acc used hsum hused hper
      · rw [if_neg hmin]
        cases hc : chunks[s.i]? with
        | none => exact ih acc used hsum hused hper
        | some c =>
          dsimp only
          by_cases hrem : opts.maxTotalChars - used = 0
          · rw [if_pos hrem]
            exact ⟨le_trans hsum hused, hper⟩
          · rw [if_neg hrem]
            by_cases hex : clipText c.text (min opts.maxChunkChars (opts.maxTotalChars - used)) = []
            · rw [if_pos hex]
              exact ih acc used hsum hused hper
            · rw [if_neg hex]
              have hallow : 1 ≤ min opts.maxChunkChars (opts.maxTotalChars - used) := by
                omega
              have hcliplen := clipText_length_le (t := c.text) hallow
              refine ih _ _ ?_ ?_ ?_
              · rw [List.map_append, List.sum_append]
                simp only [List.map_cons, List.map_nil, List.sum_cons, List.sum_nil]
                omega
              · omega
              · intro r hr
                rcases List.mem_append.1 hr with hr | hr
                · exact hper r hr
                · rw [List.mem_singleton] at hr
                  rw [hr]
                  simp only
                  omega

/-! ## `searchTfidf` structural lemmas -/

theorem searchTfidf_eq (index : TfidfIndex) (chunks : List Chunk) (query : Str)
    (opts : SearchOpts) :
    searchTfidf index chunks query opts =
      match walkAux chunks opts (sortScored (searchScored index query)) [] 0 with
      | r :: rs => r :: rs
      | [] =>
        match sortScored (searchScored index query) with
        | [] => []
        | best :: _ =>
          match chunks[best.i]? with
          | none => []
          | some c =>
            [⟨{ c with text := clipText c.text (min opts.maxChunkChars opts.maxTotalChars) },
              best.score⟩] := rfl

theorem searchScored_length (index : TfidfIndex) (query : Str) :
    (searchScored index query).length = index.vectors.length := by
  simp [searchScored]

theorem mem_searchScored_i_lt {index : TfidfIndex} {query : Str} {s : ScoredItem}
    (h : s ∈ searchScored index query) : s.i < index.vectors.length := by
  unfold searchScored at h
  rcases List.mem_map.1 h with ⟨p, hp, rfl⟩
  have := List.mem_enum_iff_getElem?.1 hp
  exact (List.getElem?_eq_some.1 this).1

theorem vectors_length (chunks : List Chunk) :
    (buildTfidfIndex chunks).vectors.length = chunks.length := by
  rw [buildTfidfIndex_vectors]
  simp [tfsOf]

theorem searchScored_ne_nil {chunks : List Chunk} (query : Str) (h : chunks ≠ []) :
    searchScored (buildTfidfIndex chunks) query ≠ [] := by
  intro hnil
  have := searchScored_length (buildTfidfIndex chunks) query
  rw [hnil, vectors_length] at this
  exact h (List.length_eq_zero.1 this.symm)

theorem searchTfidf_fallback {chunks : List Chunk} {query : Str} {opts : SearchOpts}
    {best : ScoredItem} {rest : List ScoredItem}
    (hw : walkAux chunks opts (sortScored (searchScored (buildTfidfIndex chunks) query)) [] 0 = [])
    (hs : sortScored (searchScored (buildTfidfIndex chunks) query) = best :: rest) :
    ∃ c, chunks[best.i]? = some c ∧
      searchTfidf (buildTfidfIndex chunks) chunks query opts =
        [⟨{ c with text := clipText c.text (min opts.maxChunkChars opts.maxTotalChars) },
          best.score⟩] := by
  have hmem : best ∈ searchScored (buildTfidfIndex chunks) query :=
    mem_sortScored.1 (by rw [hs]; exact List.mem_cons_self best rest)
  have hlt : best.i < chunks.length := by
    have := mem_searchScored_i_lt hmem
    rwa [vectors_length] at this
  have hc : chunks[best.i]? = some chunks[best.i] := List.getElem?_eq_getElem hlt
  refine ⟨chunks[best.i], hc, ?_⟩
  rw [searchTfidf_eq, hw, hs]
  dsimp only
  rw [hc]

theorem searchTfidf_length_pos {chunks : List Chunk} (query : Str) (opts : SearchOpts)
    (h : chunks ≠ []) :
    1 ≤ (searchTfidf (buildTfidfIndex chunks) chunks query opts).length := by
  cases hw : walkAux chunks opts (sortScored (searchScored (buildTfidfIndex chunks) query)) [] 0 with
  | cons r rs =>
    rw [searchTfidf_eq, hw]
    simp
  | nil =>
    cases hs : sortScored (searchScored (buildTfidfIndex chunks) query) with
    | nil =>
      exact absurd (sortScored_eq_nil_iff.1 hs) (searchScored_ne_nil query h)
    | cons best rest =>
      rcases searchTfidf_fallback hw hs with ⟨c, hc, heq⟩
      rw [heq]
      simp

/-! ## Concrete evaluation lemmas (empty query, singleton document) -/

theorem tokenize_nil : tokenize ([] : Str) = [] := rfl

theorem searchQ_nil_query (index : TfidfIndex) :
    searchQ index [] = List.replicate index.vocab.length 0 := by
  unfold searchQ
  rw [tokenize_nil]
  show normalizeVec (weightVec _ _ _ (buildTf [])) = _
  rw [show buildTf ([] : List Str) = [] from rfl]
  rw [show weightVec index.vocabIndex index.idf index.vocab.length [] =
    List.replicate index.vocab.length 0 from rfl]
  exact normalizeVec_of_dot_zero (dotR_replicate_zero_left _ _)

theorem searchScored_nil_query (index : TfidfIndex) :
    searchScored index [] = index.vectors.enum.map (fun p => ⟨p.1, 0⟩) := by
  unfold searchScored
  refine List.map_congr_left (fun p hp => ?_)
  rw [searchQ_nil_query, dotR_replicate_zero_left]

theorem searchTfidf_singleton_nil_query (c : Chunk) (opts : SearchOpts)
    (hms : opts.minScore = ⊥) :
    searchTfidf (buildTfidfIndex [c]) [c] [] opts =
      [⟨{ c with text := clipText c.text (min opts.maxChunkChars opts.maxTotalChars) }, 0⟩] := by
  have hlen1 : (buildTfidfIndex [c]).vectors.length = 1 := by
    rw [vectors_length]
    rfl
  rcases List.length_eq_one.1 hlen1 with ⟨v, hv⟩
  have hscored : searchScored (buildTfidfIndex [c]) [] = [⟨0, 0⟩] := by
    rw [searchScored_nil_query, hv]
    rfl
  have hsort : sortScored (searchScored (buildTfidfIndex [c]) []) = [⟨0, 0⟩] := by
    rw [hscored]
    rfl
  have hnotk : ¬max 1 opts.topK ≤ ([] : List SearchResult).length := by
    simp only [List.length_nil]
    omega
  have hnotmin : ¬(((0 : ℝ) : EReal) < opts.minScore) := by
    rw [hms]
    exact not_lt_bot
  have hchunk0 : ([c])[(0 : Nat)]? = some c := rfl
  by_cases hrem : opts.maxTotalChars - 0 = 0
  · have hwalk : walkAux [c] opts [⟨0, 0⟩] [] 0 = [] := by
      unfold walkAux
      rw [if_neg hnotk, if_neg hnotmin, hchunk0]
      dsimp only
      rw [if_pos hrem]
    rw [searchTfidf_eq, hsort, hwalk]
    rfl
  · by_cases hex : clipText c.text (min opts.maxChunkChars (opts.maxTotalChars - 0)) = []
    · have hwalk : walkAux [c] opts [⟨0, 0⟩] [] 0 = [] := by
        unfold walkAux
        rw [if_neg hnotk, if_neg hnotmin, hchunk0]
        dsimp only
        rw [if_neg hrem, if_pos hex]
        rfl
      rw [searchTfidf_eq, hsort, hwalk]
      rfl
    · have hwalk : walkAux [c] opts [⟨0, 0⟩] [] 0 =
          [⟨{ c with text := clipText c.text (min opts.maxChunkChars (opts.maxTotalChars - 0)) }, 0⟩] := by
        unfold walkAux
        rw [if_neg hnotk, if_neg hnotmin, hchunk0]
        dsimp only
        rw [if_neg hrem, if_neg hex]
        rfl
      rw [searchTfidf_eq, hsort, hwalk]
      rfl

/-! ## Self-query lemmas (claim C3 machinery) -/

theorem dotR_replicate_zero_right (v : List ℝ) (n : Nat) :
    dotR v (List.replicate n 0) = 0 := by
  induction v generalizing n with
  | nil => simp [dotR_nil_left]
  | cons x xs ih =>
    cases n with
    | zero => simp [dotR_nil_right]
    | succ m =>
      rw [List.replicate_succ, dotR_cons, ih]
      ring

theorem searchQ_of_vectors {chunks : List Chunk} {i : Nat} {c : Chunk}
    (hc : chunks[i]? = some c) :
    (buildTfidfIndex chunks).vectors[i]? =
      some (searchQ (buildTfidfIndex chunks) c.text) := by
  rw [vectors_getElem chunks hc]
  rfl

theorem searchQ_length (index : TfidfIndex) (query : Str) :
    (searchQ index query).length = index.vocab.length := by
  unfold searchQ
  rw [length_normalizeVec, length_weightVec]

theorem vectors_entry_length {chunks : List Chunk} {k : Nat} {v : List ℝ}
    (hv : (buildTfidfIndex chunks).vectors[k]? = some v) :
    v.length = (buildTfidfIndex chunks).vocab.length := by
  have hk : k < (buildTfidfIndex chunks).vectors.length := (List.getElem?_eq_some.1 hv).1
  rw [vectors_length] at hk
  have hck : chunks[k]? = some chunks[k] := List.getElem?_eq_getElem hk
  have := vectors_getElem chunks hck
  rw [hv] at this
  have hveq : v = normalizeVec (weightVec (buildTfidfIndex chunks).vocabIndex
      (buildTfidfIndex chunks).idf (buildTfidfIndex chunks).vocab.length
      (buildTf (tokenize chunks[k].text))) := by
    injection this
  rw [hveq, length_normalizeVec, length_weightVec]

theorem dotR_zipWith_sub_self (u v : List ℝ) (hlen : u.length = v.length) :
    dotR (List.zipWith (fun a b => a - b) u v) (List.zipWith (fun a b => a - b) u v) =
      dotR u u - 2 * dotR u v + dotR v v := by
  induction u generalizing v with
  | nil =>
    cases v with
    | nil => simp [dotR_nil_left]
    | cons b bs => simp at hlen
  | cons a as ih =>
    cases v with
    | nil => simp at hlen
    | cons b bs =>
      rw [List.zipWith_cons_cons, dotR_cons, dotR_cons, dotR_cons, dotR_cons,
        ih bs (by simpa using hlen)]
      ring

theorem eq_of_zipWith_sub_zero {u v : List ℝ} (hlen : u.length = v.length)
    (h : ∀ x ∈ List.zipWith (fun a b => a - b) u v, x = 0) : u = v := by
  induction u generalizing v with
  | nil =>
    cases v with
    | nil => rfl
    | cons b bs => simp at hlen
  | cons a as ih =>
    cases v with
    | nil => simp at hlen
    | cons b bs =>
      rw [List.zipWith_cons_cons] at h
      have hab : a - b = 0 := h _ (List.mem_cons_self _ _)
      have hrest := ih (v := bs) (by simpa using hlen)
        (fun x hx => h x (List.mem_cons_of_mem _ hx))
      rw [hrest, sub_eq_zero.1 hab]

theorem dotR_lt_one_of_ne {u v : List ℝ} (hlen : u.length = v.length)
    (hu : dotR u u = 1) (hv : dotR v v = 1) (hne : u ≠ v) : dotR u v < 1 := by
  have hw := dotR_zipWith_sub_self u v hlen
  rw [hu, hv] at hw
  have hw0 : 0 ≤ dotR (List.zipWith (fun a b => a - b) u v)
      (List.zipWith (fun a b => a - b) u v) := dotR_self_nonneg _
  by_contra hle
  push_neg at hle
  have hle1 : dotR u v ≤ 1 := by linarith
  have heq : dotR u v = 1 := le_antisymm hle1 hle
  rw [heq] at hw
  have hzero : dotR (List.zipWith (fun a b => a - b) u v)
      (List.zipWith (fun a b => a - b) u v) = 0 := by linarith
  exact hne (eq_of_zipWith_sub_zero hlen (all_zero_of_dotR_self_eq_zero hzero))

theorem mem_searchScored_elim {index : TfidfIndex} {query : Str} {s : ScoredItem}
    (h : s ∈ searchScored index query) :
    ∃ v, index.vectors[s.i]? = some v ∧ s.score = dotR (searchQ index query) v := by
  unfold searchScored at h
  rcases List.mem_map.1 h with ⟨p, hp, rfl⟩
  exact ⟨p.2, List.mem_enum_iff_getElem?.1 hp, rfl⟩

theorem self_item_mem_searchScored {chunks : List Chunk} {i : Nat} {c : Chunk}
    (hc : chunks[i]? = some c) :
    (⟨i, dotR (searchQ (buildTfidfIndex chunks) c.text)
        (searchQ (buildTfidfIndex chunks) c.text)⟩ : ScoredItem) ∈
      searchScored (buildTfidfIndex chunks) c.text := by
  unfold searchScored
  refine List.mem_map.2 ⟨(i, searchQ (buildTfidfIndex chunks) c.text), ?_, rfl⟩
  exact List.mk_mem_enum_iff_getElem?.2 (searchQ_of_vectors hc)

theorem dotR_self_query_one {chunks : List Chunk} {i : Nat} {c : Chunk}
    (hc : chunks[i]? = some c) (htok : tokenize c.text ≠ []) :
    dotR (searchQ (buildTfidfIndex chunks) c.text)
      (searchQ (buildTfidfIndex chunks) c.text) = 1 := by
  have hq := searchQ_of_vectors hc
  have := (vector_unit_or_zero hc hq).2 htok
  have h0 : 0 ≤ dotR (searchQ (buildTfidfIndex chunks) c.text)
      (searchQ (buildTfidfIndex chunks) c.text) := dotR_self_nonneg _
  nlinarith [Real.sq_sqrt h0, this]

theorem searchScored_self_scores {chunks : List Chunk} {i : Nat} {c : Chunk}
    (hc : chunks[i]? = some c) (htok : tokenize c.text ≠ [])
    (hdist : ∀ k vk, k ≠ i → (buildTfidfIndex chunks).vectors[k]? = some vk →
      vk ≠ searchQ (buildTfidfIndex chunks) c.text) :
    ∀ s ∈ searchScored (buildTfidfIndex chunks) c.text,
      (s.i = i → s.score = 1) ∧ (s.i ≠ i → s.score < 1) := by
  intro s hs
  rcases mem_searchScored_elim hs with ⟨v, hv, hscore⟩
  constructor
  · intro hsi
    rw [hsi] at hv
    have hq := searchQ_of_vectors hc
    rw [hq] at hv
    have hvq : searchQ (buildTfidfIndex chunks) c.text = v := by injection hv
    rw [hscore, ← hvq]
    exact dotR_self_query_one hc htok
  · intro hsi
    have hklt : s.i < chunks.length := by
      have := (List.getElem?_eq_some.1 hv).1
      rwa [vectors_length] at this
    have hck : chunks[s.i]? = some chunks[s.i] := List.getElem?_eq_getElem hklt
    have huz := vector_unit_or_zero hck hv
    by_cases htk : tokenize (chunks[s.i]).text = []
    · rw [hscore, huz.1 htk, dotR_replicate_zero_right]
      norm_num
    · have hunit : Real.sqrt (dotR v v) = 1 := huz.2 htk
      have hvv : dotR v v = 1 := by
        have h0 : 0 ≤ dotR v v := dotR_self_nonneg v
        nlinarith [Real.sq_sqrt h0]
      have hqq : dotR (searchQ (buildTfidfIndex chunks) c.text)
          (searchQ (buildTfidfIndex chunks) c.text) = 1 := dotR_self_query_one hc htok
      have hlen : (searchQ (buildTfidfIndex chunks) c.text).length = v.length := by
        rw [searchQ_length, vectors_entry_length hv]
      have hne : searchQ (buildTfidfIndex chunks) c.text ≠ v :=
        fun he => hdist s.i v hsi hv he.symm
      rw [hscore]
      exact dotR_lt_one_of_ne hlen hqq hvv hne

theorem walkAux_first_accept (chunks : List Chunk) (opts : SearchOpts)
    {s : ScoredItem} {c : Chunk} (hsc : chunks[s.i]? = some c)
    (hmin : ¬(((s.score : ℝ) : EReal) < opts.minScore))
    (hrem : opts.maxTotalChars ≠ 0)
    (hex : clipText c.text (min opts.maxChunkChars opts.maxTotalChars) ≠ [])
    (rest : List ScoredItem) :
    walkAux chunks opts (s :: rest) [] 0 =
      walkAux chunks opts rest
        [⟨{ c with text := clipText c.text (min opts.maxChunkChars opts.maxTotalChars) },
          s.score⟩]
        (clipText c.text (min opts.maxChunkChars opts.maxTotalChars)).length := by
  have hnotk : ¬max 1 opts.topK ≤ ([] : List SearchResult).length := by
    simp only [List.length_nil]
    omega
  conv_lhs => rw [walkAux.eq_def]
  dsimp only
  rw [if_neg hnotk, if_neg hmin, hsc]
  dsimp only
  rw [if_neg (show ¬opts.maxTotalChars - 0 = 0 from by omega)]
  rw [if_neg (show ¬clipText c.text (min opts.maxChunkChars (opts.maxTotalChars - 0)) = []
    from by rw [Nat.sub_zero]; exact hex)]
  rw [Nat.sub_zero, List.nil_append, Nat.zero_add]

theorem searchTfidf_self (chunks : List Chunk) {i : Nat} {c : Chunk}
    (hc : chunks[i]? = some c) (htok : tokenize c.text ≠ [])
    (hdist : ∀ k vk, k ≠ i → (buildTfidfIndex chunks).vectors[k]? = some vk →
      vk ≠ searchQ (buildTfidfIndex chunks) c.text) :
    ∃ rest, searchTfidf (buildTfidfIndex chunks) chunks c.text ⟨5, ⊥, 1400, 9000⟩ =
      ⟨{ c with text := clipText c.text 1400 }, 1⟩ :: rest := by
  have hscores := searchScored_self_scores hc htok hdist
  have hqq := dotR_self_query_one hc htok
  have hx : (⟨i, 1⟩ : ScoredItem) ∈ searchScored (buildTfidfIndex chunks) c.text := by
    have := self_item_mem_searchScored hc
    rwa [hqq] at this
  have hmax : ∀ y ∈ searchScored (buildTfidfIndex chunks) c.text,
      y ≠ (⟨i, 1⟩ : ScoredItem) → y.score < (⟨i, 1⟩ : ScoredItem).score := by
    intro y hy hne
    by_cases hyi : y.i = i
    · have hy1 : y.score = 1 := (hscores y hy).1 hyi
      exact absurd (by
        rcases y with ⟨yi, ys⟩
        simp only at hyi hy1
        rw [hyi, hy1]) hne
    · exact (hscores y hy).2 hyi
  rcases sortScored_head_of_strict_max hx hmax with ⟨xs, hsort⟩
  have htext : c.text ≠ [] := by
    intro he
    rw [he, tokenize_nil] at htok
    exact htok rfl
  have hex : clipText c.text (min (1400 : Nat) 9000) ≠ [] := by
    rw [Ne, clipText_eq_nil_iff]
    exact htext
  have hw1 := walkAux_first_accept chunks ⟨5, ⊥, 1400, 9000⟩
    (s := ⟨i, 1⟩) hc (by simp) (by norm_num) hex xs
  rcases walkAux_extends chunks ⟨5, ⊥, 1400, 9000⟩ xs
    [⟨{ c with text := clipText c.text (min (1400 : Nat) 9000) }, 1⟩]
    (clipText c.text (min (1400 : Nat) 9000)).length with ⟨t, ht⟩
  have hmin1400 : (min (1400 : Nat) 9000) = 1400 := by norm_num
  refine ⟨t, ?_⟩
  rw [searchTfidf_eq, hsort, hw1, ht]
  rw [hmin1400]
  rfl

/-! ## String-trim lemmas (claim C4 machinery) -/

theorem length_dropWhile_le (p : Char → Bool) (l : Str) :
    (l.dropWhile p).length ≤ l.length := by
  induction l with
  | nil => simp
  | cons c cs ih =>
    rw [List.dropWhile_cons]
    by_cases h : p c
    · rw [if_pos h]
      exact le_trans ih (by simp)
    · rw [if_neg h]

theorem dropWhile_append_singleton {p : Char → Bool} {ch : Char} (h : ¬p ch = true)
    (l : Str) : List.dropWhile p (l ++ [ch]) = List.dropWhile p l ++ [ch] := by
  induction l with
  | nil => simp [List.dropWhile_cons, h]
  | cons c cs ih =>
    rw [List.cons_append, List.dropWhile_cons, List.dropWhile_cons]
    by_cases hc : p c
    · rw [if_pos hc, if_pos hc, ih]
    · rw [if_neg hc, if_neg hc, List.cons_append]

theorem trimStart_append_of_ne_nil {a : Str} (h : trimStart a ≠ []) (b : Str) :
    trimStart (a ++ b) = trimStart a ++ b := by
  induction a with
  | nil => exact absurd rfl h
  | cons c cs ih =>
    unfold trimStart at *
    rw [List.cons_append, List.dropWhile_cons, List.dropWhile_cons]
    by_cases hc : isWsChar c
    · rw [if_pos hc, if_pos hc]
      rw [List.dropWhile_cons, if_pos hc] at h
      exact ih h
    · rw [if_neg hc, if_neg hc, List.cons_append]

theorem trimEnd_append_singleton {ch : Char} (h : ¬isWsChar ch = true) (l : Str) :
    trimEnd (l ++ [ch]) = l ++ [ch] := by
  unfold trimEnd
  rw [List.reverse_append, List.reverse_singleton, List.singleton_append,
    List.dropWhile_cons, if_neg h, List.reverse_cons, List.reverse_reverse]


theorem endsSolid_of_solid {s : Str} (h : SolidStr s) : EndsSolid s := by
  rcases h with ⟨hne, _, hend⟩
  rcases List.eq_nil_or_concat s with rfl | ⟨l, ch, rfl⟩
  · exact absurd rfl hne
  · rw [List.concat_eq_append] at *
    refine ⟨l, ch, rfl, ?_⟩
    by_contra hws
    have hws' : isWsChar ch = true := by
      cases hx : isWsChar ch
      · exact absurd hx hws
      · rfl
    have hlen : (trimEnd (l ++ [ch])).length ≤ l.length := by
      unfold trimEnd
      rw [List.reverse_append, List.reverse_singleton, List.singleton_append,
        List.dropWhile_cons, if_pos hws', List.length_reverse]
      calc (List.dropWhile isWsChar l.reverse).length ≤ l.reverse.length :=
            length_dropWhile_le _ _
        _ = l.length := List.length_reverse l
    rw [hend] at hlen
    simp at hlen

theorem trimStart_of_endsSolid {l : Str} {ch : Char} (h : isWsChar ch = false) :
    trimStart (l ++ [ch]) = trimStart l ++ [ch] := by
  unfold trimStart
  exact dropWhile_append_singleton (by simp [h]) l

theorem endsSolid_trimStart {s : Str} (h : EndsSolid s) :
    trimStart s ≠ [] ∧ EndsSolid (trimStart s) ∧ jsTrim s = trimStart s := by
  rcases h with ⟨l, ch, rfl, hch⟩
  rw [trimStart_of_endsSolid hch]
  refine ⟨by simp, ⟨trimStart l, ch, rfl, hch⟩, ?_⟩
  unfold jsTrim
  rw [trimStart_of_endsSolid hch, trimEnd_append_singleton (by simp [hch])]

theorem endsSolid_append_left {s : Str} (x : Str) (h : EndsSolid s) :
    EndsSolid (x ++ s) := by
  rcases h with ⟨l, ch, rfl, hch⟩
  exact ⟨x ++ l, ch, by rw [List.append_assoc], hch⟩

theorem endsSolid_ne_nil {s : Str} (h : EndsSolid s) : s ≠ [] := by
  rcases h with ⟨l, ch, rfl, _⟩
  simp

/-! ## Join lemmas -/

theorem jsJoin_cons_of_ne_nil (s a : Str) {l : List Str} (h : l ≠ []) :
    jsJoin s (a :: l) = a ++ s ++ jsJoin s l := by
  cases l with
  | nil => exact absurd rfl h
  | cons b bs => rfl

theorem sepJoin_nil : sepJoin [] = [] := rfl

theorem sepJoin_cons (t : Str) (l : List Str) :
    sepJoin (t :: l) = sepNN ++ t ++ sepJoin l := by
  unfold sepJoin
  rw [List.map_cons, List.flatten_cons, List.append_assoc]

theorem jsJoin_eq_head_append_sepJoin (a : Str) (l : List Str) :
    jsJoin sepNN (a :: l) = a ++ sepJoin l := by
  induction l generalizing a with
  | nil => simp [jsJoin, sepJoin_nil]
  | cons b bs ih =>
    rw [jsJoin_cons_of_ne_nil _ _ (List.cons_ne_nil b bs), ih b, sepJoin_cons]
    simp [List.append_assoc]

theorem sepJoin_eq_sep_append_jsJoin {l : List Str} (h : l ≠ []) :
    sepJoin l = sepNN ++ jsJoin sepNN l := by
  cases l with
  | nil => exact absurd rfl h
  | cons a as =>
    rw [sepJoin_cons, jsJoin_eq_head_append_sepJoin]
    simp [List.append_assoc]

theorem sepJoin_append_singleton (l : List Str) (t : Str) :
    sepJoin (l ++ [t]) = sepJoin l ++ (sepNN ++ t) := by
  unfold sepJoin
  rw [List.map_append, List.flatten_append]
  simp

theorem jsJoin_append_singleton (s : Str) {l : List Str} (h : l ≠ []) (t : Str) :
    jsJoin s (l ++ [t]) = jsJoin s l ++ s ++ t := by
  induction l with
  | nil => exact absurd rfl h
  | cons a as ih =>
    cases as with
    | nil => rfl
    | cons b bs =>
      rw [List.cons_append, jsJoin_cons_of_ne_nil s a (by simp),
        jsJoin_cons_of_ne_nil s a (List.cons_ne_nil b bs), ih (List.cons_ne_nil b bs)]
      simp [List.append_assoc]

/-! ## Solid joins, overlap seeds, reconstruction -/

theorem solidStr_trimStart_ne_nil {s : Str} (h : SolidStr s) : trimStart s ≠ [] := by
  rcases h with ⟨hne, hstart, _⟩
  rw [hstart]
  exact hne

theorem endsSolid_jsJoin {l : List Str} (hne : l ≠ []) (h : ∀ t ∈ l, SolidStr t) :
    EndsSolid (jsJoin sepNN l) := by
  induction l using List.reverseRecOn with
  | nil => exact absurd rfl hne
  | append_singleton l t ih =>
    rcases endsSolid_of_solid (h t (by simp)) with ⟨lt, ch, hteq, hch⟩
    cases hl : l with
    | nil =>
      rw [hl] at *
      rw [List.nil_append, show jsJoin sepNN [t] = t from rfl, hteq]
      exact ⟨lt, ch, rfl, hch⟩
    | cons a as =>
      rw [← hl]
      rw [jsJoin_append_singleton _ (by rw [hl]; simp) t, hteq]
      exact ⟨jsJoin sepNN l ++ sepNN ++ lt, ch, by simp [List.append_assoc], hch⟩

theorem solid_jsJoin {l : List Str} (hne : l ≠ []) (h : ∀ t ∈ l, SolidStr t) :
    jsTrim (jsJoin sepNN l) = jsJoin sepNN l ∧ jsJoin sepNN l ≠ [] ∧
      EndsSolid (jsJoin sepNN l) := by
  have hend := endsSolid_jsJoin hne h
  have hjoin_ne : jsJoin sepNN l ≠ [] := endsSolid_ne_nil hend
  cases l with
  | nil => exact absurd rfl hne
  | cons a as =>
    have hsa := h a (by simp)
    have hstart : trimStart (jsJoin sepNN (a :: as)) = jsJoin sepNN (a :: as) := by
      rw [jsJoin_eq_head_append_sepJoin]
      rw [trimStart_append_of_ne_nil (solidStr_trimStart_ne_nil hsa), hsa.2.1]
    have htrim : jsTrim (jsJoin sepNN (a :: as)) = jsJoin sepNN (a :: as) := by
      unfold jsTrim
      rw [hstart]
      rcases hend with ⟨le, ch, heq, hch⟩
      rw [heq]
      exact trimEnd_append_singleton (by simp [hch]) le
    exact ⟨htrim, hjoin_ne, hend⟩

theorem takeRight_endsSolid {s : Str} {V : Nat} (hV : 1 ≤ V) (h : EndsSolid s) :
    EndsSolid (takeRight V s) := by
  rcases h with ⟨l, ch, rfl, hch⟩
  unfold takeRight
  have hlen : (l ++ [ch]).length = l.length + 1 := by simp
  rw [hlen]
  have hle : l.length + 1 - V ≤ l.length := by omega
  rw [List.drop_append_of_le_length hle]
  exact ⟨_, ch, rfl, hch⟩

theorem overlapSeed_spec {text : Str} {V : Nat} (hV : 1 ≤ V) (h : EndsSolid text) :
    overlapSeed V text = takeRight V text ∧ EndsSolid (overlapSeed V text) ∧
      overlapSeed V text ≠ [] ∧ trimStart (overlapSeed V text) ≠ [] := by
  have htail := takeRight_endsSolid hV h
  have htrim : jsTrim (takeRight V text) ≠ [] := by
    rcases endsSolid_trimStart htail with ⟨hne, _, hjs⟩
    rw [hjs]
    exact hne
  have hseed : overlapSeed V text = takeRight V text := by
    unfold overlapSeed
    rw [if_neg (by omega : ¬V = 0)]
    simp only
    rw [if_neg htrim]
  refine ⟨hseed, hseed ▸ htail, hseed ▸ endsSolid_ne_nil htail, ?_⟩
  rw [hseed]
  exact (endsSolid_trimStart htail).1


theorem lastTextD_nil (prev : Str) : lastTextD prev [] = prev := rfl

theorem lastTextD_cons (prev : Str) (d : Chunk) (ds : List Chunk) :
    lastTextD prev (d :: ds) = lastTextD d.text ds := by
  unfold lastTextD
  cases ds with
  | nil => rfl
  | cons e es =>
    rw [List.getLast?_cons_cons]
    cases h : (e :: es).getLast? with
    | none =>
      have hs : (e :: es).getLast?.isSome = true := List.getLast?_isSome.2 (by simp)
      rw [h] at hs
      simp at hs
    | some c => rfl

theorem reconAux_append (V : Nat) (c : Chunk) :
    ∀ (cs : List Chunk) (prev : Str),
      reconAux V prev (cs ++ [c]) = reconAux V prev cs ++
        c.text.drop (trimStart (overlapSeed V (lastTextD prev cs))).length := by
  intro cs
  induction cs with
  | nil =>
    intro prev
    rw [lastTextD_nil]
    show c.text.drop _ ++ reconAux V c.text [] = _
    rw [show reconAux V c.text [] = [] from rfl]
    simp [reconAux]
  | cons d ds ih =>
    intro prev
    rw [List.cons_append]
    show d.text.drop _ ++ reconAux V d.text (ds ++ [c]) = _
    rw [ih d.text, lastTextD_cons]
    show _ = d.text.drop _ ++ reconAux V d.text ds ++ _
    rw [List.append_assoc]

theorem recon_append {cs : List Chunk} (c : Chunk) (h : cs ≠ []) :
    recon V cs ++ c.text.drop (trimStart (overlapSeed V (lastTextD [] cs))).length =
      recon V (cs ++ [c]) := by
  cases cs with
  | nil => exact absurd rfl h
  | cons c0 cs' =>
    rw [List.cons_append]
    show _ = c0.text ++ reconAux V c0.text (cs' ++ [c])
    rw [reconAux_append V c cs' c0.text, lastTextD_cons]
    show c0.text ++ reconAux V c0.text cs' ++ _ = _
    rw [List.append_assoc]

/-! ## The chunker invariant (claim C4) -/


theorem lastTextD_of_getLast? {cs : List Chunk} {c : Chunk} (prev : Str)
    (h : cs.getLast? = some c) : lastTextD prev cs = c.text := by
  unfold lastTextD
  rw [h]

theorem flushCP_cons_eq (docId : Str) (V : Nat) (chs : List Chunk) (bl : Nat)
    (b0 : Page) (rest : List Page) :
    flushCP docId V ⟨chs, b0 :: rest, bl⟩ =
      if V = 0 then
        ⟨(if jsTrim (jsJoin sepNN ((b0 :: rest).map (fun p => p.text))) = [] then chs
          else chs ++ [⟨chunkId docId chs.length, docId, b0.pageNumber,
            ((b0 :: rest).getLast (List.cons_ne_nil b0 rest)).pageNumber,
            jsTrim (jsJoin sepNN ((b0 :: rest).map (fun p => p.text)))⟩]), [], 0⟩
      else if jsTrim (takeRight V (jsTrim (jsJoin sepNN ((b0 :: rest).map (fun p => p.text))))) = [] then
        ⟨(if jsTrim (jsJoin sepNN ((b0 :: rest).map (fun p => p.text))) = [] then chs
          else chs ++ [⟨chunkId docId chs.length, docId, b0.pageNumber,
            ((b0 :: rest).getLast (List.cons_ne_nil b0 rest)).pageNumber,
            jsTrim (jsJoin sepNN ((b0 :: rest).map (fun p => p.text)))⟩]), [], 0⟩
      else
        ⟨(if jsTrim (jsJoin sepNN ((b0 :: rest).map (fun p => p.text))) = [] then chs
          else chs ++ [⟨chunkId docId chs.length, docId, b0.pageNumber,
            ((b0 :: rest).getLast (List.cons_ne_nil b0 rest)).pageNumber,
            jsTrim (jsJoin sepNN ((b0 :: rest).map (fun p => p.text)))⟩]),
         [⟨((b0 :: rest).getLast (List.cons_ne_nil b0 rest)).pageNumber,
           takeRight V (jsTrim (jsJoin sepNN ((b0 :: rest).map (fun p => p.text))))⟩],
         (takeRight V (jsTrim (jsJoin sepNN ((b0 :: rest).map (fun p => p.text))))).length⟩ := rfl

theorem jsTrim_takeRight_ne_nil {text : Str} {V : Nat} (hV : 1 ≤ V)
    (h : EndsSolid text) : jsTrim (takeRight V text) ≠ [] := by
  have htail := takeRight_endsSolid hV h
  rcases endsSolid_trimStart htail with ⟨hne, _, hjs⟩
  rw [hjs]
  exact hne

theorem recon_singleton (V : Nat) (c : Chunk) : recon V [c] = c.text := by
  show c.text ++ reconAux V c.text [] = c.text
  rw [show reconAux V c.text [] = [] from rfl, List.append_nil]

theorem flushCP_spec (docId : Str) {V : Nat} {pre : List Page} {st : CPState}
    (hV : 1 ≤ V) (hpre : ∀ p ∈ pre, GoodPage p) (hinv : ChunkInv V pre st) :
    ChunkInv V pre (flushCP docId V st) ∧
    recon V (flushCP docId V st).chunks = jsJoin sepNN (pre.map (fun p => p.text)) := by
  obtain ⟨chs, buf, bl⟩ := st
  have hV0 : ¬V = 0 := by omega
  rcases hinv with ⟨hch, hbuf⟩ | ⟨cLast, b0, sfx, hne, hlast, hsolid, hbuf, hb0, hsfx, hprene, hrecon⟩
  · -- nothing emitted yet: the buffer is exactly the processed pages
    simp only at hch hbuf
    subst hch
    subst hbuf
    cases buf with
    | nil =>
      exact ⟨Or.inl ⟨rfl, rfl⟩, rfl⟩
    | cons p0 pre' =>
      have htexts : ∀ t ∈ (p0 :: pre').map (fun p => p.text), SolidStr t := by
        intro t ht
        rcases List.mem_map.1 ht with ⟨p, hp, rfl⟩
        exact hpre p hp
      rcases solid_jsJoin (by simp) htexts with ⟨hJtrim, hJne, hJsolid⟩
      rw [flushCP_cons_eq, if_neg hV0]
      rw [if_neg (by rw [hJtrim]; exact jsTrim_takeRight_ne_nil hV hJsolid)]
      rw [if_neg (by rw [hJtrim]; exact hJne)]
      simp only [List.nil_append]
      set J := jsJoin sepNN ((p0 :: pre').map (fun p => p.text)) with hJdef
      set c' : Chunk := ⟨chunkId docId ([] : List Chunk).length, docId, p0.pageNumber,
        ((p0 :: pre').getLast (List.cons_ne_nil p0 pre')).pageNumber, jsTrim J⟩ with hc'
      constructor
      · refine Or.inr ⟨c', ⟨((p0 :: pre').getLast (List.cons_ne_nil p0 pre')).pageNumber,
          takeRight V (jsTrim J)⟩, [], by simp, by simp, ?_, rfl, ?_, by simp, by simp, ?_⟩
        · show EndsSolid (jsTrim J)
          rw [hJtrim]
          exact hJsolid
        · show takeRight V (jsTrim J) = overlapSeed V (jsTrim J)
          rw [hJtrim, (overlapSeed_spec hV hJsolid).1]
        · show recon V [c'] ++ sepJoin [] = J
          rw [recon_singleton, sepJoin_nil, List.append_nil]
          show jsTrim J = J
          exact hJtrim
      · show recon V [c'] = J
        rw [recon_singleton]
        exact hJtrim
  · -- the buffer starts with the previous chunk's overlap seed
    simp only at hne hlast hbuf hrecon
    subst hbuf
    rcases overlapSeed_spec hV hsolid with ⟨hseedeq, hseedsolid, hseedne, hseedstart⟩
    rw [← hb0] at hseedsolid hseedne hseedstart
    cases hsfxn : sfx with
    | nil =>
      subst hsfxn
      have hJ : jsJoin sepNN ((b0 :: []).map (fun p => p.text)) = b0.text := rfl
      rcases endsSolid_trimStart hseedsolid with ⟨hts_ne, hts_solid, hts_trim⟩
      rw [flushCP_cons_eq, if_neg hV0, hJ]
      rw [if_neg (by rw [hts_trim]; exact jsTrim_takeRight_ne_nil hV hts_solid)]
      rw [if_neg (by rw [hts_trim]; exact hts_ne)]
      set c' : Chunk := ⟨chunkId docId chs.length, docId, b0.pageNumber,
        ((b0 :: []).getLast (List.cons_ne_nil b0 [])).pageNumber, jsTrim b0.text⟩ with hc'
      have hreconnew : recon V (chs ++ [c']) = recon V chs := by
        rw [← recon_append c' hne]
        rw [lastTextD_of_getLast? [] hlast]
        show recon V chs ++ (jsTrim b0.text).drop (trimStart (overlapSeed V cLast.text)).length
          = recon V chs
        rw [← hb0, hts_trim, List.drop_length, List.append_nil]
      have hreconpre : recon V chs = jsJoin sepNN (pre.map (fun p => p.text)) := by
        rw [← hrecon]
        rw [show (([] : List Page).map (fun p => p.text)) = [] from rfl, sepJoin_nil,
          List.append_nil]
      constructor
      · refine Or.inr ⟨c', ⟨((b0 :: []).getLast (List.cons_ne_nil b0 [])).pageNumber,
          takeRight V (jsTrim b0.text)⟩, [], by simp, by rw [List.getLast?_concat], ?_, rfl,
          ?_, by simp, hprene, ?_⟩
        · show EndsSolid (jsTrim b0.text)
          rw [hts_trim]
          exact hts_solid
        · show takeRight V (jsTrim b0.text) = overlapSeed V (jsTrim b0.text)
          rw [hts_trim, (overlapSeed_spec hV hts_solid).1]
        · show recon V (chs ++ [c']) ++ sepJoin [] = _
          rw [sepJoin_nil, List.append_nil, hreconnew, hreconpre]
      · show recon V (chs ++ [c']) = _
        rw [hreconnew, hreconpre]
    | cons q sfx' =>
      subst hsfxn
      set ts := (q :: sfx').map (fun p => p.text) with htsdef
      have htsne : ts ≠ [] := by rw [htsdef]; simp
      have htssolid : ∀ t ∈ ts, SolidStr t := by
        intro t ht
        rw [htsdef] at ht
        rcases List.mem_map.1 ht with ⟨p, hp, rfl⟩
        exact hsfx p hp
      rcases solid_jsJoin htsne htssolid with ⟨hJts_trim, hJts_ne, hJts_solid⟩
      have hJ : jsJoin sepNN ((b0 :: q :: sfx').map (fun p => p.text)) =
          b0.text ++ sepNN ++ jsJoin sepNN ts := by
        rw [List.map_cons, ← htsdef, jsJoin_cons_of_ne_nil _ _ htsne]
      have htext : jsTrim (b0.text ++ sepNN ++ jsJoin sepNN ts) =
          trimStart b0.text ++ sepNN ++ jsJoin sepNN ts := by
        unfold jsTrim
        rw [List.append_assoc, trimStart_append_of_ne_nil hseedstart, ← List.append_assoc]
        have hsol : EndsSolid (trimStart b0.text ++ sepNN ++ jsJoin sepNN ts) := by
          rw [List.append_assoc]
          exact endsSolid_append_left _ (endsSolid_append_left _ hJts_solid)
        rcases hsol with ⟨le, ch, heq, hch⟩
        rw [heq]
        exact trimEnd_append_singleton (by simp [hch]) le
      have htextsolid : EndsSolid (trimStart b0.text ++ sepNN ++ jsJoin sepNN ts) := by
        rw [List.append_assoc]
        exact endsSolid_append_left _ (endsSolid_append_left _ hJts_solid)
      have htextne : trimStart b0.text ++ sepNN ++ jsJoin sepNN ts ≠ [] :=
        endsSolid_ne_nil htextsolid
      rw [flushCP_cons_eq, if_neg hV0, hJ]
      rw [if_neg (by rw [htext]; exact jsTrim_takeRight_ne_nil hV htextsolid)]
      rw [if_neg (by rw [htext]; exact htextne)]
      set c' : Chunk := ⟨chunkId docId chs.length, docId, b0.pageNumber,
        ((b0 :: q :: sfx').getLast (List.cons_ne_nil b0 (q :: sfx'))).pageNumber,
        jsTrim (b0.text ++ sepNN ++ jsJoin sepNN ts)⟩ with hc'
      have hreconnew : recon V (chs ++ [c']) =
          recon V chs ++ (sepNN ++ jsJoin sepNN ts) := by
        rw [← recon_append c' hne]
        rw [lastTextD_of_getLast? [] hlast]
        show recon V chs ++
          (jsTrim (b0.text ++ sepNN ++ jsJoin sepNN ts)).drop
            (trimStart (overlapSeed V cLast.text)).length = _
        rw [← hb0, htext, List.append_assoc, List.drop_left]
      have hreconpre : recon V chs ++ (sepNN ++ jsJoin sepNN ts) =
          jsJoin sepNN (pre.map (fun p => p.text)) := by
        rw [← hrecon, sepJoin_eq_sep_append_jsJoin htsne]
      constructor
      · refine Or.inr ⟨c', ⟨((b0 :: q :: sfx').getLast (List.cons_ne_nil b0 (q :: sfx'))).pageNumber,
          takeRight V (jsTrim (b0.text ++ sepNN ++ jsJoin sepNN ts))⟩, [], by simp,
          by rw [List.getLast?_concat], ?_, rfl, ?_, by simp, hprene, ?_⟩
        · show EndsSolid (jsTrim (b0.text ++ sepNN ++ jsJoin sepNN ts))
          rw [htext]
          exact htextsolid
        · show takeRight V (jsTrim (b0.text ++ sepNN ++ jsJoin sepNN ts)) =
            overlapSeed V (jsTrim (b0.text ++ sepNN ++ jsJoin sepNN ts))
          rw [htext, (overlapSeed_spec hV htextsolid).1]
        · show recon V (chs ++ [c']) ++ sepJoin [] = _
          rw [sepJoin_nil, List.append_nil, hreconnew, hreconpre]
      · show recon V (chs ++ [c']) = _
        rw [hreconnew, hreconpre]

theorem push_preserves {V : Nat} {pre : List Page} {st : CPState} {p : Page}
    (hgood : GoodPage p) (hinv : ChunkInv V pre st) :
    ChunkInv V (pre ++ [p]) ⟨st.chunks, st.buf ++ [p], st.bufLen + p.text.length⟩ := by
  obtain ⟨chs, buf, bl⟩ := st
  rcases hinv with ⟨hch, hbuf⟩ | ⟨cLast, b0, sfx, hne, hlast, hsolid, hbuf, hb0, hsfx, hprene, hrecon⟩
  · simp only at hch hbuf
    subst hch
    subst hbuf
    exact Or.inl ⟨rfl, rfl⟩
  · simp only at hne hlast hbuf hrecon
    subst hbuf
    refine Or.inr ⟨cLast, b0, sfx ++ [p], hne, hlast, hsolid, by simp, hb0, ?_, by simp, ?_⟩
    · intro x hx
      rcases List.mem_append.1 hx with hx | hx
      · exact hsfx x hx
      · rw [List.mem_singleton] at hx
        exact hx ▸ hgood
    · show recon V chs ++ sepJoin ((sfx ++ [p]).map (fun x => x.text)) = _
      rw [List.map_append, List.map_singleton, sepJoin_append_singleton, List.map_append,
        List.map_singleton]
      rw [jsJoin_append_singleton sepNN (by
        intro hx
        exact hprene (List.map_eq_nil_iff.1 hx)) p.text]
      show _ = jsJoin sepNN (pre.map fun x => x.text) ++ sepNN ++ ((fun x => x.text) p)
      rw [← hrecon]
      simp [List.append_assoc]

theorem chunkPagesAux_recon (docId : Str) (T V : Nat) (hV : 1 ≤ V) :
    ∀ (ps pre : List Page) (st : CPState),
      (∀ p ∈ ps, GoodPage p) → (∀ p ∈ pre, GoodPage p) → ChunkInv V pre st →
      recon V (chunkPagesAux docId T V ps st).chunks =
        jsJoin sepNN ((pre ++ ps).map (fun p => p.text)) := by
  intro ps
  induction ps with
  | nil =>
    intro pre st hps hpre hinv
    rw [List.append_nil]
    exact (flushCP_spec docId hV hpre hinv).2
  | cons p ps' ih =>
    intro pre st hps hpre hinv
    have hgp : GoodPage p := hps p (List.mem_cons_self p ps')
    have hptext : ¬p.text = [] := hgp.1
    show recon V (chunkPagesAux docId T V (p :: ps') st).chunks = _
    rw [chunkPagesAux]
    rw [if_neg hptext]
    have hinv1 : ChunkInv V (pre ++ [p]) ⟨st.chunks, st.buf ++ [p], st.bufLen + p.text.length⟩ :=
      push_preserves hgp hinv
    have hpre1 : ∀ x ∈ pre ++ [p], GoodPage x := by
      intro x hx
      rcases List.mem_append.1 hx with hx | hx
      · exact hpre x hx
      · rw [List.mem_singleton] at hx
        exact hx ▸ hgp
    have hps' : ∀ x ∈ ps', GoodPage x := fun x hx => hps x (List.mem_cons_of_mem p hx)
    have hinv2 : ChunkInv V (pre ++ [p])
        (if T ≤ st.bufLen + p.text.length then
          flushCP docId V ⟨st.chunks, st.buf ++ [p], st.bufLen + p.text.length⟩
        else ⟨st.chunks, st.buf ++ [p], st.bufLen + p.text.length⟩) := by
      by_cases hT : T ≤ st.bufLen + p.text.length
      · rw [if_pos hT]
        exact (flushCP_spec docId hV hpre1 hinv1).1
      · rw [if_neg hT]
        exact hinv1
    have := ih (pre ++ [p]) _ hps' hpre1 hinv2
    rw [this, List.append_assoc, List.singleton_append]

theorem chunkPages_recon (pages : List Page) (docId : Str) (T V : Nat) (hV : 1 ≤ V)
    (hgood : ∀ p ∈ pages, GoodPage p) :
    recon V (chunkPages pages docId T V) =
      jsJoin sepNN (pages.map (fun p => p.text)) := by
  unfold chunkPages
  have := chunkPagesAux_recon docId T V hV pages [] ⟨[], [], 0⟩ hgood (by simp)
    (Or.inl ⟨rfl, rfl⟩)
  rw [this, List.nil_append]

/-! ## Document-frequency as a count over chunks -/


theorem dfCountTfs_eq_dfChunkCount (chunks : List Chunk) (t : Str) :
    dfCountTfs (tfsOf chunks) t = dfChunkCount chunks t := by
  unfold dfCountTfs tfsOf dfChunkCount
  rw [List.countP_map, List.countP_map]
  refine List.countP_congr (fun c _ => ?_)
  simp only [Function.comp]
  by_cases h : t ∈ tokenize c.text
  · rw [(buildTf_isSome_iff t (tokenize c.text)).2 h]
    simp [h]
  · have : alookup (buildTf (tokenize c.text)) t = none := buildTf_alookup_of_not_mem h
    rw [this]
    simp [h]


/-! ## The claims -/

/-- C1: for the index built over a chunk list containing at least one
non-empty chunk, `searchTfidf` returns at least one result for every query
and every option set (any `minScore` included); and whenever the accepting
walk collects zero results, the returned list is exactly one result — the
top element of the sorted scores (whose score dominates every chunk's
score), with its text truncated to the smaller of `maxChunkChars` and
`maxTotalChars`. -/
theorem C1_nonempty_result_fallback (chunks : List Chunk) (query : Str)
    (opts : SearchOpts) (hne : ∃ c ∈ chunks, c.text ≠ []) :
    1 ≤ (searchTfidf (buildTfidfIndex chunks) chunks query opts).length ∧
    ∀ best rest,
      sortScored (searchScored (buildTfidfIndex chunks) query) = best :: rest →
      walkAux chunks opts (sortScored (searchScored (buildTfidfIndex chunks) query)) [] 0 = [] →
      ∃ c, chunks[best.i]? = some c ∧
        searchTfidf (buildTfidfIndex chunks) chunks query opts =
          [⟨{ c with text := clipText c.text (min opts.maxChunkChars opts.maxTotalChars) },
            best.score⟩] ∧
        ∀ s ∈ searchScored (buildTfidfIndex chunks) query, s.score ≤ best.score := by
  have hchunks : chunks ≠ [] := by
    rcases hne with ⟨c, hc, _⟩
    exact List.ne_nil_of_mem hc
  refine ⟨searchTfidf_length_pos query opts hchunks, ?_⟩
  intro best rest hs hw
  rcases searchTfidf_fallback hw hs with ⟨c, hc, heq⟩
  exact ⟨c, hc, heq, sortScored_head_ge hs⟩

/-- C1 witness: a singleton document with chunk text `"ab"`. -/
theorem C1_witness :
    (∃ c ∈ [cAB], c.text ≠ []) ∧
      1 ≤ (searchTfidf (buildTfidfIndex [cAB]) [cAB] [] defaultOpts).length := by
  have hne : ∃ c ∈ [cAB], c.text ≠ [] := ⟨cAB, by simp, by decide⟩
  exact ⟨hne, (C1_nonempty_result_fallback [cAB] [] defaultOpts hne).1⟩

/-- C2 counterexample: with `maxTotalChars = 0` (and a non-empty chunk) the
fallback clips with a zero allowance, which `clipText` treats as "no
truncation", so the sum of returned excerpt lengths is 2 > 0: the budget
claim fails for that option value. -/
theorem C2_counterexample :
    ¬ (((searchTfidf (buildTfidfIndex [cAB]) [cAB] [] cexOpts).map
        (fun r => r.chunk.text.length)).sum ≤ cexOpts.maxTotalChars) := by
  rw [searchTfidf_singleton_nil_query cAB cexOpts rfl]
  simp only [List.map_cons, List.map_nil, List.sum_cons, List.sum_nil]
  show ¬(clipText cAB.text (min cexOpts.maxChunkChars cexOpts.maxTotalChars)).length + 0 ≤ 0
  decide

/-- C2 (amended): for every call with positive `maxChunkChars` and
`maxTotalChars` budgets — which the zero-budget counterexample forces as a
precondition — the sum of the returned excerpt lengths never exceeds
`maxTotalChars`, and no single excerpt exceeds `maxChunkChars`, on the walk
path and the single-result fallback path alike. -/
theorem C2_budget_enforcement (index : TfidfIndex) (chunks : List Chunk)
    (query : Str) (opts : SearchOpts) (hchunk : 1 ≤ opts.maxChunkChars)
    (htotal : 1 ≤ opts.maxTotalChars) :
    ((searchTfidf index chunks query opts).map (fun r => r.chunk.text.length)).sum ≤
        opts.maxTotalChars ∧
      ∀ r ∈ searchTfidf index chunks query opts,
        r.chunk.text.length ≤ opts.maxChunkChars := by
  rcases walkAux_budget chunks opts hchunk htotal
      (sortScored (searchScored index query)) [] 0 (by simp) (by omega) (by simp)
    with ⟨hsum, hper⟩
  rw [searchTfidf_eq]
  cases hw : walkAux chunks opts (sortScored (searchScored index query)) [] 0 with
  | cons r rs =>
    rw [hw] at hsum hper
    exact ⟨hsum, hper⟩
  | nil =>
    cases hs : sortScored (searchScored index query) with
    | nil => simp
    | cons best rest =>
      cases hc : chunks[best.i]? with
      | none =>
        dsimp only
        rw [hc]
        simp
      | some c =>
        dsimp only
        rw [hc]
        have hallow : 1 ≤ min opts.maxChunkChars opts.maxTotalChars := by omega
        have hcl := clipText_length_le (t := c.text) hallow
        constructor
        · simp only [List.map_cons, List.map_nil, List.sum_cons, List.sum_nil]
          omega
        · intro r hr
          rw [List.mem_singleton] at hr
          rw [hr]
          simp only
          omega

/-- C2 witness (for the amended theorem): the default options are positive
budgets. -/
theorem C2_witness :
    1 ≤ defaultOpts.maxChunkChars ∧ 1 ≤ defaultOpts.maxTotalChars ∧
      ((searchTfidf (buildTfidfIndex [cAB]) [cAB] [] defaultOpts).map
          (fun r => r.chunk.text.length)).sum ≤ defaultOpts.maxTotalChars := by
  refine ⟨by decide, by decide, ?_⟩
  exact (C2_budget_enforcement (buildTfidfIndex [cAB]) [cAB] [] defaultOpts
    (by decide) (by decide)).1

/-- C3: in a document of at least two chunks whose index vectors are
pairwise distinguishable from chunk `i`'s, querying with chunk `i`'s own
exact text (default options) returns that chunk first, with score 1, and
every other chunk scores strictly below 1 (the query vector coincides with
chunk `i`'s stored vector, whose self-similarity is maximal). -/
theorem C3_self_similarity (chunks : List Chunk) (i : Nat) (c : Chunk)
    (hc : chunks[i]? = some c) (hlen2 : 2 ≤ chunks.length)
    (htok : tokenize c.text ≠ [])
    (hdist : ∀ k vk vi, k ≠ i → (buildTfidfIndex chunks).vectors[k]? = some vk →
      (buildTfidfIndex chunks).vectors[i]? = some vi → vk ≠ vi) :
    (∃ rest, searchTfidf (buildTfidfIndex chunks) chunks c.text ⟨5, ⊥, 1400, 9000⟩ =
        ⟨{ c with text := clipText c.text 1400 }, 1⟩ :: rest) ∧
    (∀ s ∈ searchScored (buildTfidfIndex chunks) c.text, s.i = i → s.score = 1) ∧
    (∀ s ∈ searchScored (buildTfidfIndex chunks) c.text, s.i ≠ i → s.score < 1) := by
  have hq := searchQ_of_vectors hc
  have hdist' : ∀ k vk, k ≠ i → (buildTfidfIndex chunks).vectors[k]? = some vk →
      vk ≠ searchQ (buildTfidfIndex chunks) c.text := by
    intro k vk hk hvk
    exact hdist k vk (searchQ (buildTfidfIndex chunks) c.text) hk hvk hq
  have hscores := searchScored_self_scores hc htok hdist'
  exact ⟨searchTfidf_self chunks hc htok hdist',
    fun s hs => (hscores s hs).1, fun s hs => (hscores s hs).2⟩

theorem cEmpty_vector : (buildTfidfIndex [cAB, cEmpty]).vectors[1]? = some [(0 : ℝ)] := by
  rw [vectors_getElem [cAB, cEmpty] (show ([cAB, cEmpty])[1]? = some cEmpty from rfl)]
  have h1 : buildTf (tokenize cEmpty.text) = [] := rfl
  rw [h1]
  have h2 : weightVec (buildTfidfIndex [cAB, cEmpty]).vocabIndex
      (buildTfidfIndex [cAB, cEmpty]).idf (buildTfidfIndex [cAB, cEmpty]).vocab.length [] =
      List.replicate (buildTfidfIndex [cAB, cEmpty]).vocab.length 0 := rfl
  rw [h2]
  have h3 : (buildTfidfIndex [cAB, cEmpty]).vocab.length = 1 := rfl
  rw [h3]
  rw [normalizeVec_of_dot_zero (dotR_replicate_zero_left 1 _)]
  rfl

theorem cAB_vector_ne_zero : ∀ vi, (buildTfidfIndex [cAB, cEmpty]).vectors[0]? = some vi →
    vi ≠ [(0 : ℝ)] := by
  intro vi hvi
  have hc0 : ([cAB, cEmpty])[0]? = some cAB := rfl
  have := vectors_getElem [cAB, cEmpty] hc0
  rw [hvi] at this
  have hvieq : vi = normalizeVec (weightVec (buildTfidfIndex [cAB, cEmpty]).vocabIndex
      (buildTfidfIndex [cAB, cEmpty]).idf (buildTfidfIndex [cAB, cEmpty]).vocab.length
      (buildTf (tokenize cAB.text))) := by injection this
  set x : ℝ := ((1 : Nat) : ℝ) *
    (buildTfidfIndex [cAB, cEmpty]).idf.getD 0 0 with hxdef
  have hw : weightVec (buildTfidfIndex [cAB, cEmpty]).vocabIndex
      (buildTfidfIndex [cAB, cEmpty]).idf (buildTfidfIndex [cAB, cEmpty]).vocab.length
      (buildTf (tokenize cAB.text)) = [x] := rfl
  have hvocab : ("ab".data : Str) ∈ (buildTfidfIndex [cAB, cEmpty]).vocab := by
    rw [show (buildTfidfIndex [cAB, cEmpty]).vocab = ["ab".data] from rfl]
    exact List.mem_singleton.2 rfl
  have hidf : (buildTfidfIndex [cAB, cEmpty]).idf.getD 0 0 =
      idfOf 2 (buildDf (tfsOf [cAB, cEmpty])) "ab".data := rfl
  have hx1 : 1 ≤ x := by
    rw [hxdef, hidf]
    have := one_le_idfOf_vocab [cAB, cEmpty] hvocab
    simpa using this
  have hxpos : 0 < x := by linarith
  rw [hvieq, hw]
  unfold normalizeVec
  simp only [List.map_cons, List.map_nil]
  intro heq
  have hhead : x / normR [x] = 0 := by
    have := List.head_eq_of_cons_eq heq
    exact this
  have hnorm : normR [x] ≠ 0 := by
    unfold normR
    split
    · exact one_ne_zero
    · rename_i hsq
      exact hsq
  rcases div_eq_zero_iff.1 hhead with hx0 | hn0
  · linarith
  · exact hnorm hn0

theorem searchQ_of_tokenize_nil (index : TfidfIndex) (query : Str)
    (h : tokenize query = []) :
    searchQ index query = List.replicate index.vocab.length 0 := by
  unfold searchQ
  rw [h]
  rw [show buildTf ([] : List Str) = [] from rfl]
  rw [show weightVec index.vocabIndex index.idf index.vocab.length [] =
    List.replicate index.vocab.length 0 from rfl]
  exact normalizeVec_of_dot_zero (dotR_replicate_zero_left _ _)

theorem item_mem_searchScored (index : TfidfIndex) (query : Str) {k : Nat}
    {v : List ℝ} (hv : index.vectors[k]? = some v) :
    (⟨k, dotR (searchQ index query) v⟩ : ScoredItem) ∈ searchScored index query := by
  unfold searchScored
  exact List.mem_map.2 ⟨(k, v), List.mk_mem_enum_iff_getElem?.2 hv, rfl⟩

theorem cBang_vector : (buildTfidfIndex [cBang, cAB]).vectors[0]? = some [(0 : ℝ)] := by
  rw [vectors_getElem [cBang, cAB] (show ([cBang, cAB])[0]? = some cBang from rfl)]
  have h1 : buildTf (tokenize cBang.text) = [] := rfl
  rw [h1]
  have h2 : weightVec (buildTfidfIndex [cBang, cAB]).vocabIndex
      (buildTfidfIndex [cBang, cAB]).idf (buildTfidfIndex [cBang, cAB]).vocab.length [] =
      List.replicate (buildTfidfIndex [cBang, cAB]).vocab.length 0 := rfl
  rw [h2]
  have h3 : (buildTfidfIndex [cBang, cAB]).vocab.length = 1 := rfl
  rw [h3]
  rw [normalizeVec_of_dot_zero (dotR_replicate_zero_left 1 _)]
  rfl

theorem cAB1_vector_ne_zero : ∀ vi, (buildTfidfIndex [cBang, cAB]).vectors[1]? = some vi →
    vi ≠ [(0 : ℝ)] := by
  intro vi hvi
  have hc1 : ([cBang, cAB])[1]? = some cAB := rfl
  have := vectors_getElem [cBang, cAB] hc1
  rw [hvi] at this
  have hvieq : vi = normalizeVec (weightVec (buildTfidfIndex [cBang, cAB]).vocabIndex
      (buildTfidfIndex [cBang, cAB]).idf (buildTfidfIndex [cBang, cAB]).vocab.length
      (buildTf (tokenize cAB.text))) := by injection this
  set x : ℝ := ((1 : Nat) : ℝ) *
    (buildTfidfIndex [cBang, cAB]).idf.getD 0 0 with hxdef
  have hw : weightVec (buildTfidfIndex [cBang, cAB]).vocabIndex
      (buildTfidfIndex [cBang, cAB]).idf (buildTfidfIndex [cBang, cAB]).vocab.length
      (buildTf (tokenize cAB.text)) = [x] := rfl
  have hvocab : ("ab".data : Str) ∈ (buildTfidfIndex [cBang, cAB]).vocab := by
    rw [show (buildTfidfIndex [cBang, cAB]).vocab = ["ab".data] from rfl]
    exact List.mem_singleton.2 rfl
  have hidf : (buildTfidfIndex [cBang, cAB]).idf.getD 0 0 =
      idfOf 2 (buildDf (tfsOf [cBang, cAB])) "ab".data := rfl
  have hx1 : 1 ≤ x := by
    rw [hxdef, hidf]
    have := one_le_idfOf_vocab [cBang, cAB] hvocab
    simpa using this
  have hxpos : 0 < x := by linarith
  rw [hvieq, hw]
  unfold normalizeVec
  simp only [List.map_cons, List.map_nil]
  intro heq
  have hhead : x / normR [x] = 0 := by
    have := List.head_eq_of_cons_eq heq
    exact this
  have hnorm : normR [x] ≠ 0 := by
    unfold normR
    split
    · exact one_ne_zero
    · rename_i hsq
      exact hsq
  rcases div_eq_zero_iff.1 hhead with hx0 | hn0
  · linarith
  · exact hnorm hn0

/-- C3 witness: a two-chunk document (`"ab"` and an empty-text chunk) whose
vectors differ; the `"ab"` chunk is returned first with score 1 when
queried with its own text. -/
theorem C3_witness :
    (([cAB, cEmpty])[0]? = some cAB) ∧ 2 ≤ ([cAB, cEmpty] : List Chunk).length ∧
      tokenize cAB.text ≠ [] ∧
      (∃ rest, searchTfidf (buildTfidfIndex [cAB, cEmpty]) [cAB, cEmpty] cAB.text
          ⟨5, ⊥, 1400, 9000⟩ = ⟨{ cAB with text := clipText cAB.text 1400 }, 1⟩ :: rest) := by
  have hc : ([cAB, cEmpty])[0]? = some cAB := rfl
  have htok : tokenize cAB.text ≠ [] := by decide
  have hdist : ∀ k vk vi, k ≠ 0 → (buildTfidfIndex [cAB, cEmpty]).vectors[k]? = some vk →
      (buildTfidfIndex [cAB, cEmpty]).vectors[0]? = some vi → vk ≠ vi := by
    intro k vk vi hk hvk hvi
    have hklt : k < 2 := by
      have := (List.getElem?_eq_some.1 hvk).1
      rwa [vectors_length] at this
    have hk1 : k = 1 := by omega
    subst hk1
    rw [cEmpty_vector] at hvk
    have hvk0 : vk = [(0 : ℝ)] := by
      injection hvk with h
      exact h.symm
    rw [hvk0]
    intro he
    exact cAB_vector_ne_zero vi hvi he.symm
  exact ⟨hc, by decide, htok,
    (C3_self_similarity [cAB, cEmpty] 0 cAB hc (by decide) htok hdist).1⟩

/-- C3 counterexample: the two-chunk document `["!!", "ab"]` has at least
two chunks with distinguishable normalized vectors (the zero vector and a
unit vector), yet querying with the `"!!"` chunk's own exact text — which
tokenizes to nothing, making the query vector zero — gives every chunk the
score 0, so the queried chunk's score is not strictly the highest among
all chunks' scores: the original claim fails without a hypothesis that the
queried chunk has at least one token. -/
theorem C3_counterexample :
    2 ≤ ([cBang, cAB] : List Chunk).length ∧
    ([cBang, cAB] : List Chunk)[0]? = some cBang ∧
    (∀ k vk v0, k ≠ 0 → (buildTfidfIndex [cBang, cAB]).vectors[k]? = some vk →
      (buildTfidfIndex [cBang, cAB]).vectors[0]? = some v0 → vk ≠ v0) ∧
    (∀ s ∈ searchScored (buildTfidfIndex [cBang, cAB]) cBang.text, s.score = 0) ∧
    ¬ (∀ s0 ∈ searchScored (buildTfidfIndex [cBang, cAB]) cBang.text,
       ∀ s ∈ searchScored (buildTfidfIndex [cBang, cAB]) cBang.text,
         s0.i = 0 → s.i ≠ 0 → s.score < s0.score) := by
  have htokq : tokenize cBang.text = [] := rfl
  refine ⟨by decide, rfl, ?_, ?_, ?_⟩
  · intro k vk v0 hk hvk hv0
    have hklt : k < 2 := by
      have := (List.getElem?_eq_some.1 hvk).1
      rwa [vectors_length] at this
    have hk1 : k = 1 := by omega
    subst hk1
    have hv00 : v0 = [(0 : ℝ)] := by
      rw [cBang_vector] at hv0
      injection hv0 with h
      exact h.symm
    rw [hv00]
    exact cAB1_vector_ne_zero vk hvk
  · intro s hs
    rcases mem_searchScored_elim hs with ⟨v, hv, hscore⟩
    rw [hscore, searchQ_of_tokenize_nil _ _ htokq, dotR_replicate_zero_left]
  · intro hstrict
    have hs0 := item_mem_searchScored (buildTfidfIndex [cBang, cAB]) cBang.text cBang_vector
    have hc1 : ([cBang, cAB])[1]? = some cAB := rfl
    have hv1 := vectors_getElem [cBang, cAB] hc1
    have hs1 := item_mem_searchScored (buildTfidfIndex [cBang, cAB]) cBang.text hv1
    have h01 := hstrict _ hs0 _ hs1 rfl (by decide)
    dsimp only at h01
    rw [searchQ_of_tokenize_nil _ _ htokq] at h01
    rw [dotR_replicate_zero_left, dotR_replicate_zero_left] at h01
    exact lt_irrefl 0 h01

/-- C4: for a non-empty sequence of pages with non-empty normalized
(trimmed) text, and overlap enabled, concatenating the chunks' texts with
each later chunk's overlap-duplicated leading tail removed reconstructs the
pages' text joined by the inserted paragraph separators, with no gaps. -/
theorem C4_chunk_coverage (pages : List Page) (docId : Str)
    (targetChars overlapChars : Nat) (hV : 1 ≤ overlapChars) (hne : pages ≠ [])
    (hgood : ∀ p ∈ pages, p.text ≠ [] ∧ trimStart p.text = p.text ∧
      trimEnd p.text = p.text) :
    recon overlapChars (chunkPages pages docId targetChars overlapChars) =
      jsJoin sepNN (pages.map (fun p => p.text)) :=
  chunkPages_recon pages docId targetChars overlapChars hV (fun p hp => hgood p hp)

/-- C4 witness: two four-character pages, target 6, overlap 3. -/
theorem C4_witness :
    1 ≤ 3 ∧ ([⟨1, "aaaa".data⟩, ⟨2, "bbbb".data⟩] : List Page) ≠ [] ∧
      recon 3 (chunkPages [⟨1, "aaaa".data⟩, ⟨2, "bbbb".data⟩] "d".data 6 3) =
        jsJoin sepNN (([⟨1, "aaaa".data⟩, ⟨2, "bbbb".data⟩] : List Page).map (fun p => p.text)) := by
  refine ⟨by decide, by decide, ?_⟩
  exact C4_chunk_coverage [⟨1, "aaaa".data⟩, ⟨2, "bbbb".data⟩] "d".data 6 3 (by decide)
    (by decide) (by decide)

/-- C5: every per-chunk vector stored by `buildTfidfIndex` has L2 norm
exactly 1 when the chunk has at least one (length ≥ 2) token, and is the
zero vector when the chunk tokenizes to nothing (the norm divisor is 1 in
that case). -/
theorem C5_index_vector_unit_length (chunks : List Chunk) (i : Nat) (c : Chunk)
    (v : List ℝ) (hc : chunks[i]? = some c)
    (hv : (buildTfidfIndex chunks).vectors[i]? = some v) :
    (tokenize c.text ≠ [] → Real.sqrt (dotR v v) = 1) ∧
      (tokenize c.text = [] → v = List.replicate (buildTfidfIndex chunks).vocab.length 0) :=
  ⟨(vector_unit_or_zero hc hv).2, (vector_unit_or_zero hc hv).1⟩

/-- C5 witness: the singleton `"ab"` document. -/
theorem C5_witness :
    (([cAB] : List Chunk)[0]? = some cAB) ∧
      ((buildTfidfIndex [cAB]).vectors[0]? = some (normalizeVec (weightVec
        (buildTfidfIndex [cAB]).vocabIndex (buildTfidfIndex [cAB]).idf
        (buildTfidfIndex [cAB]).vocab.length (buildTf (tokenize cAB.text))))) ∧
      (tokenize cAB.text ≠ [] → Real.sqrt (dotR (normalizeVec (weightVec
        (buildTfidfIndex [cAB]).vocabIndex (buildTfidfIndex [cAB]).idf
        (buildTfidfIndex [cAB]).vocab.length (buildTf (tokenize cAB.text))))
        (normalizeVec (weightVec (buildTfidfIndex [cAB]).vocabIndex
        (buildTfidfIndex [cAB]).idf (buildTfidfIndex [cAB]).vocab.length
        (buildTf (tokenize cAB.text))))) = 1) := by
  have hc : ([cAB] : List Chunk)[0]? = some cAB := rfl
  have hv := vectors_getElem [cAB] hc
  exact ⟨hc, hv, (C5_index_vector_unit_length [cAB] 0 cAB _ hc hv).1⟩

/-- C6: every stored idf weight is `ln((N + 1) / (df(t) + 1)) + 1` where
`df(t)` counts the chunks containing the term, and this weight is at least
1 (hence strictly positive), with `df(t) ≤ N`. -/
theorem C6_smoothed_idf (chunks : List Chunk) (j : Nat) (t : Str)
    (hj : (buildTfidfIndex chunks).vocab[j]? = some t) :
    (buildTfidfIndex chunks).idf[j]? =
      some (Real.log (((chunks.length : ℝ) + 1) / ((dfChunkCount chunks t : ℝ) + 1)) + 1) ∧
    (∀ x, (buildTfidfIndex chunks).idf[j]? = some x → 1 ≤ x) ∧
    dfChunkCount chunks t ≤ chunks.length := by
  have ht : t ∈ (buildTfidfIndex chunks).vocab := mem_of_getElem?_some hj
  have hidfj : (buildTfidfIndex chunks).idf[j]? =
      some (idfOf chunks.length (buildDf (tfsOf chunks)) t) := by
    rw [buildTfidfIndex_idf, List.getElem?_map, hj]
    rfl
  rcases vocab_df_value chunks ht with ⟨hdf, hpos, hle⟩
  refine ⟨?_, ?_, ?_⟩
  · rw [hidfj, idfOf_vocab_value chunks ht, dfCountTfs_eq_dfChunkCount]
  · intro x hx
    rw [hidfj] at hx
    have hxval : x = idfOf chunks.length (buildDf (tfsOf chunks)) t := by
      injection hx with h
      exact h.symm
    rw [hxval]
    exact one_le_idfOf_vocab chunks ht
  · rw [← dfCountTfs_eq_dfChunkCount]
    exact hle

/-- C6 witness: the singleton `"ab"` document's only vocabulary term. -/
theorem C6_witness :
    ((buildTfidfIndex [cAB]).vocab[0]? = some "ab".data) ∧
      (buildTfidfIndex [cAB]).idf[0]? =
        some (Real.log ((((1 : Nat) : ℝ) + 1) / ((dfChunkCount [cAB] "ab".data : ℝ) + 1)) + 1) := by
  have hj : (buildTfidfIndex [cAB]).vocab[0]? = some "ab".data := rfl
  have := (C6_smoothed_idf [cAB] 0 "ab".data hj).1
  exact ⟨hj, by simpa using this⟩

/-- C7: in the chat flow, for a document with at least one chunk the
candidate set handed to generation is never empty — it is the
`minSimilarity`-filtered set when that is non-empty, and otherwise the
unfiltered retrieved set (low-confidence excerpts are still sent) — so the
"could not find a relevant section" branch is unreachable. -/
theorem C7_advisory_floor (s : ChatSettings) (doc : StoredDoc) (query : Str)
    (hne : doc.chunks ≠ []) :
    chatCandidates s doc query ≠ [] ∧
    (chatStrong s doc query ≠ [] → chatCandidates s doc query = chatStrong s doc query) ∧
    (chatStrong s doc query = [] → chatCandidates s doc query = chatRetrieved s doc query) := by
  have hr : chatRetrieved s doc query ≠ [] := by
    have hlen := @searchTfidf_length_pos doc.chunks query
      ⟨s.topK, ⊥, s.maxChunkChars, s.maxTotalContextChars⟩ hne
    intro h0
    unfold chatRetrieved at h0
    rw [h0] at hlen
    simp at hlen
  refine ⟨?_, ?_, ?_⟩
  · unfold chatCandidates
    by_cases hs : (chatStrong s doc query).length ≠ 0
    · rw [if_pos hs]
      intro h0
      rw [h0] at hs
      simp at hs
    · rw [if_neg hs]
      exact hr
  · intro hstrong
    unfold chatCandidates
    rw [if_pos (by simpa [List.length_eq_zero] using hstrong)]
  · intro hstrong
    unfold chatCandidates
    rw [if_neg (by simp [hstrong])]

/-- C7 witness: the one-chunk `"ab"` document with the default settings. -/
theorem C7_witness :
    docAB.chunks ≠ [] ∧ chatCandidates settings0 docAB [] ≠ [] := by
  have hne : docAB.chunks ≠ [] := by
    show ([cAB] : List Chunk) ≠ []
    simp
  exact ⟨hne, (C7_advisory_floor settings0 docAB [] hne).1⟩

/-- C8: a stored document with no chunks or no extracted characters makes
the chat handler answer the fixed no-readable-text message with no sources
and zero generation calls, whatever the rest of the handler (the summary
branch included) would do; the summarizer likewise returns its fixed
message with no sources and zero generation calls when the document has no
chunks. -/
theorem C8_empty_document_short_circuit :
    (∀ (rest : StoredDoc → Str → ChatResponse) (doc : StoredDoc) (q : Str),
      doc.chunks = [] ∨ doc.totalExtractedChars = 0 →
      chatRespond rest doc q = ⟨NO_TEXT_ANSWER, [], 0⟩) ∧
    (∀ (rest : StoredDoc → SummaryResult) (doc : StoredDoc),
      doc.chunks = [] → summarizeDocument rest doc = ⟨NO_CHUNKS_SUMMARY, [], 0⟩) := by
  constructor
  · intro rest doc q h
    unfold chatRespond
    rw [if_pos]
    rcases h with h | h
    · exact Or.inl (by rw [h]; rfl)
    · exact Or.inr h
  · intro rest doc h
    unfold summarizeDocument
    rw [if_pos (by rw [h]; rfl)]

/-- C8 witness: the empty stored document, with continuations that would
make 7 generation calls if reached. -/
theorem C8_witness :
    ((⟨[], 0⟩ : StoredDoc).chunks = [] ∨ (⟨[], 0⟩ : StoredDoc).totalExtractedChars = 0) ∧
      chatRespond (fun _ _ => ⟨[], [], 7⟩) ⟨[], 0⟩ [] = ⟨NO_TEXT_ANSWER, [], 0⟩ ∧
      summarizeDocument (fun _ => ⟨[], [], 7⟩) ⟨[], 0⟩ = ⟨NO_CHUNKS_SUMMARY, [], 0⟩ :=
  ⟨Or.inl rfl,
    C8_empty_document_short_circuit.1 (fun _ _ => ⟨[], [], 7⟩) ⟨[], 0⟩ [] (Or.inl rfl),
    C8_empty_document_short_circuit.2 (fun _ => ⟨[], [], 7⟩) ⟨[], 0⟩ rfl⟩

/-- C9: for literal and structure modes the per-side compare retrieval uses
`topK = min(10, base topK + 3)`; for every mode each side's total character
budget is `⌊maxTotalContextChars / 2⌋`, and the two sides are retrieved
independently, each against its own document's index. -/
theorem C9_compare_params (s : ChatSettings) (mode : CompareMode)
    (docA docB docA' docB' : StoredDoc) (query : Str) :
    ((mode = CompareMode.literalMode ∨ mode = CompareMode.structureMode) →
      (compareOpts s mode).topK = min 10 (s.topK + 3)) ∧
    (compareOpts s mode).maxTotalChars = s.maxTotalContextChars / 2 ∧
    (compareRetrieve s mode docA docB query).1 =
      searchTfidf (buildTfidfIndex docA.chunks) docA.chunks query (compareOpts s mode) ∧
    (compareRetrieve s mode docA docB query).2 =
      searchTfidf (buildTfidfIndex docB.chunks) docB.chunks query (compareOpts s mode) ∧
    (compareRetrieve s mode docA docB query).1 = (compareRetrieve s mode docA docB' query).1 ∧
    (compareRetrieve s mode docA docB query).2 = (compareRetrieve s mode docA' docB query).2 := by
  refine ⟨?_, rfl, rfl, rfl, rfl, rfl⟩
  intro h
  rcases h with h | h <;> subst h <;> rfl

/-- C9 witness: the literal mode at the default settings. -/
theorem C9_witness :
    (CompareMode.literalMode = CompareMode.literalMode ∨
      CompareMode.literalMode = CompareMode.structureMode) ∧
    (compareOpts settings0 CompareMode.literalMode).topK = min 10 (settings0.topK + 3) ∧
    (compareOpts settings0 CompareMode.literalMode).maxTotalChars =
      settings0.maxTotalContextChars / 2 := by
  have h := C9_compare_params settings0 CompareMode.literalMode docAB docAB docAB docAB []
  exact ⟨Or.inl rfl, h.1 (Or.inl rfl), h.2.1⟩

/-- C10: every result `searchTfidf` returns carries a chunk record that is
a stored chunk with only its `text` replaced by a clipped copy — stored
chunks are never returned with mutated text in place; in the pure
embedding the inputs are unchanged by construction, and this theorem
verifies that outputs are rebuilt copies of stored chunks. -/
theorem C10_results_are_fresh_copies (index : TfidfIndex) (chunks : List Chunk)
    (query : Str) (opts : SearchOpts) :
    ∀ r ∈ searchTfidf index chunks query opts,
      ∃ (i : Nat) (c : Chunk), chunks[i]? = some c ∧
        ∃ m, r.chunk = { c with text := clipText c.text m } := by
  intro r hr
  rw [searchTfidf_eq] at hr
  cases hw : walkAux chunks opts (sortScored (searchScored index query)) [] 0 with
  | cons x xs =>
    rw [hw] at hr
    dsimp only at hr
    rcases walkAux_shape chunks opts (sortScored (searchScored index query)) [] 0 r
        (by rw [hw]; exact hr) with hin | ⟨i, c, m, hc, hshape⟩
    · exact absurd hin (List.not_mem_nil r)
    · exact ⟨i, c, hc, m, hshape⟩
  | nil =>
    rw [hw] at hr
    dsimp only at hr
    cases hs : sortScored (searchScored index query) with
    | nil =>
      rw [hs] at hr
      exact absurd hr (List.not_mem_nil r)
    | cons best rest =>
      rw [hs] at hr
      dsimp only at hr
      cases hc : chunks[best.i]? with
      | none =>
        rw [hc] at hr
        exact absurd hr (List.not_mem_nil r)
      | some c =>
        rw [hc] at hr
        rw [List.mem_singleton] at hr
        exact ⟨best.i, c, hc, min opts.maxChunkChars opts.maxTotalChars, by rw [hr]⟩

/-- C10 witness: the singleton `"ab"` document queried with the empty
query at default options. -/
theorem C10_witness :
    ((⟨{ cAB with text := clipText cAB.text (min defaultOpts.maxChunkChars defaultOpts.maxTotalChars) }, 0⟩ : SearchResult) ∈
      searchTfidf (buildTfidfIndex [cAB]) [cAB] [] defaultOpts) ∧
    ∃ (i : Nat) (c : Chunk), ([cAB] : List Chunk)[i]? = some c ∧
      ∃ m, ({ cAB with text := clipText cAB.text (min defaultOpts.maxChunkChars defaultOpts.maxTotalChars) } : Chunk) =
          { c with text := clipText c.text m } := by
  have hmem : (⟨{ cAB with text := clipText cAB.text (min defaultOpts.maxChunkChars defaultOpts.maxTotalChars) }, 0⟩ : SearchResult) ∈
      searchTfidf (buildTfidfIndex [cAB]) [cAB] [] defaultOpts := by
    rw [searchTfidf_singleton_nil_query cAB defaultOpts rfl]
    exact List.mem_singleton.2 rfl
  rcases C10_results_are_fresh_copies (buildTfidfIndex [cAB]) [cAB] [] defaultOpts _ hmem
    with ⟨i, c, hc, m, hshape⟩
  exact ⟨hmem, i, c, hc, m, hshape⟩
